import Mathlib

/-!
Verification of the TinyKVRaftServer RPC/fiber runtime against its
natural-language specification.

The development shallowly embeds the C++ sources:

* `rpc::Buffer` (buffer.h) and `rpc::Protocol` (protocol.h): byte-level
  framing.  Bytes are modelled as `Nat` (the code never inspects byte
  values except the four length bytes, which the encoder produces
  `< 256`).
* the jsoncpp-backed codec (`encoder.h`, `rpc_serializer_pfr.h`):
  `Json::Value` is modelled by an inductive `JValue`; the repository's
  `Serializer<T>` specializations are translated case by case.  jsoncpp
  itself is an external library; its in-memory `Json::Value` semantics
  (`asInt`, `asUInt64`, `size()`, `operator[]`, sorted member storage)
  are modelled faithfully, and its text writer is modelled for the
  fragment the claims touch (integers, strings, arrays, objects).
  `double` payloads are modelled by `ℚ`: the codec only passes them
  through unchanged, and IEEE `float`→`double` widening is exact.
* `rpc::RpcClient` (rpc_client.h): a labelled transition system over the
  pending-request table and the per-call reply channels.
* `rpc::RpcServer` (rpc_server.h): request dispatch and the
  `registerHandler` adaptor, with C++ exceptions modelled by
  `Except String`.
* `raft::MemoryPersister` (persister.h): every method body is entirely
  guarded by `std::unique_lock(mu_)`, so each operation is modelled as
  one atomic step on the persister state.
-/

namespace Rpc

/-! ### Buffer (buffer.h)

`rpc::Buffer` is a `std::vector<char>` plus a read cursor `read_index_`.
Bytes are modelled as `Nat`.  `peekBytes` is the region `peek()` points
at, i.e. the unread suffix of the underlying storage. -/

/-- State of `rpc::Buffer`: the backing vector `buffer_` and the read
cursor `read_index_`. -/
structure Buffer where
  data : List Nat
  readIndex : Nat
deriving DecidableEq

namespace Buffer

/-- Class invariant of `rpc::Buffer`: the read cursor never passes the
end of the backing vector.  Every constructor and method of the C++
class preserves it. -/
def wf (b : Buffer) : Prop := b.readIndex ≤ b.data.length

instance (b : Buffer) : Decidable b.wf := by unfold wf; infer_instance

/-- `Buffer()` default constructor: empty vector, cursor 0. -/
def empty : Buffer := ⟨[], 0⟩

/-- `Buffer::append`: `buffer_.insert(buffer_.end(), data, data + len)`. -/
def append (b : Buffer) (s : List Nat) : Buffer := ⟨b.data ++ s, b.readIndex⟩

/-- `Buffer::readable`: `buffer_.size() - read_index_` (size_t
subtraction; under `wf` it never underflows, matching `Nat`
subtraction). -/
def readable (b : Buffer) : Nat := b.data.length - b.readIndex

/-- The unread region, i.e. the bytes reachable through `peek()`
(`buffer_.data() + read_index_`). -/
def peekBytes (b : Buffer) : List Nat := b.data.drop b.readIndex

/-- `Buffer::consume`: clamps `len` to `readable()`, advances the read
cursor, and compacts (erases the consumed region) once the cursor
passes half of the backing vector (`read_index_ > buffer_.size() / 2`). -/
def consume (b : Buffer) (len : Nat) : Buffer :=
  let len' := min len b.readable
  let ri := b.readIndex + len'
  if b.data.length / 2 < ri then ⟨b.data.drop ri, 0⟩ else ⟨b.data, ri⟩

/-- `Buffer::retrieve`: clamps `len` to `readable()`, copies that many
bytes out of the front of the unread region, then consumes them. -/
def retrieve (b : Buffer) (len : Nat) : List Nat × Buffer :=
  let len' := min len b.readable
  (b.peekBytes.take len', b.consume len')

theorem wf_empty : wf empty := by simp [wf, empty]

theorem wf_append (b : Buffer) (s : List Nat) (h : b.wf) : (b.append s).wf := by
  simpa [wf, append] using le_trans h (by simp)

theorem readable_eq_length_peekBytes (b : Buffer) : b.readable = b.peekBytes.length := by
  simp [readable, peekBytes]

theorem peekBytes_append (b : Buffer) (s : List Nat) (h : b.wf) :
    (b.append s).peekBytes = b.peekBytes ++ s := by
  simp [peekBytes, append, List.drop_append_of_le_length h]

theorem readable_append (b : Buffer) (s : List Nat) (h : b.wf) :
    (b.append s).readable = b.readable + s.length := by
  rw [readable_eq_length_peekBytes, peekBytes_append b s h, List.length_append,
    readable_eq_length_peekBytes]

theorem wf_consume (b : Buffer) (len : Nat) (h : b.wf) : (b.consume len).wf := by
  unfold wf at h
  have h1 : b.readIndex + min len b.readable ≤ b.data.length := by
    unfold readable
    omega
  simp only [consume, wf]
  split
  · simp
  · simpa using h1

/-- Consuming drops exactly `min len readable` bytes off the front of
the unread region; compaction does not change the region. -/
theorem peekBytes_consume (b : Buffer) (len : Nat) :
    (b.consume len).peekBytes = b.peekBytes.drop (min len b.readable) := by
  simp only [consume, peekBytes]
  split
  · simp [Nat.add_comm, List.drop_drop]
  · simp [Nat.add_comm, List.drop_drop]

theorem readable_consume (b : Buffer) (len : Nat) :
    (b.consume len).readable = b.readable - min len b.readable := by
  rw [readable_eq_length_peekBytes, peekBytes_consume, List.length_drop,
    ← readable_eq_length_peekBytes]

/-- Retrieve returns exactly `min len readable` bytes taken from the
front of the unread region, and the returned buffer has consumed
exactly those bytes. -/
theorem retrieve_spec (b : Buffer) (len : Nat) (h : b.wf) :
    (b.retrieve len).1 = b.peekBytes.take (min len b.readable) ∧
    (b.retrieve len).2.peekBytes = b.peekBytes.drop (min len b.readable) ∧
    (b.retrieve len).2.readable = b.readable - min len b.readable ∧
    (b.retrieve len).2.wf := by
  refine ⟨rfl, ?_, ?_, wf_consume _ _ h⟩
  · rw [show (b.retrieve len).2 = b.consume (min len b.readable) from rfl,
      peekBytes_consume]
    congr 1
    omega
  · rw [show (b.retrieve len).2 = b.consume (min len b.readable) from rfl,
      readable_consume]
    congr 1
    omega

end Buffer

/-! ### Protocol (protocol.h)

`Protocol::encode` writes `htonl(payload.size())` (four bytes, most
significant first) followed by the payload.  `Protocol::decode` peeks
the four length bytes through `ntohl`, waits until `4 + length` bytes
are readable, then consumes the header and retrieves the payload. -/

namespace Protocol

/-- The four bytes of `htonl (n mod 2^32)` in memory order (big-endian,
most significant first).  `uint32_t length = payload.size()` truncates
to 32 bits, which the `%`s implement for arbitrary `n`. -/
def be32 (n : Nat) : List Nat :=
  [n / 2 ^ 24 % 256, n / 2 ^ 16 % 256, n / 2 ^ 8 % 256, n % 256]

/-- Reading four bytes back through `memcpy` + `ntohl`: big-endian
interpretation of the first four list elements. -/
def fromBE4 : List Nat → Nat
  | a :: b :: c :: d :: _ => ((a * 256 + b) * 256 + c) * 256 + d
  | _ => 0

/-- `Protocol::encode`: length prefix in network byte order followed by
the payload bytes. -/
def encode (payload : List Nat) : List Nat := be32 payload.length ++ payload

/-- `Protocol::decode` on a `Buffer`.  Returns `none` when the frame is
not yet readable — the C++ code returns `false` without having touched
the buffer in that case — and otherwise the extracted payload together
with the advanced buffer.  The readiness threshold `4 + length` is the
C++ expression `4 + length` with `length` a `uint32_t`: the sum is
computed in 32-bit unsigned arithmetic and wraps modulo `2^32` (for
`length ≥ 2^32 - 4` the threshold wraps to `length - (2^32 - 4)`, so
the code proceeds early and `retrieve` clamps the payload). -/
def decode (b : Buffer) : Option (List Nat × Buffer) :=
  if b.readable < 4 then none
  else
    let len := fromBE4 b.peekBytes
    if b.readable < (4 + len) % 2 ^ 32 then none
    else
      let b1 := b.consume 4
      let (payload, b2) := b1.retrieve len
      some (payload, b2)

theorem fromBE4_be32 (n : Nat) (rest : List Nat) (h : n < 2 ^ 32) :
    fromBE4 (be32 n ++ rest) = n := by
  simp only [be32, fromBE4, List.cons_append]
  omega

/-- Unfolding of `decode` with the `let` bindings and the pair
destructuring reduced away. -/
theorem decode_eq (b : Buffer) :
    decode b =
      if b.readable < 4 then none
      else if b.readable < (4 + fromBE4 b.peekBytes) % 2 ^ 32 then none
      else some (((b.consume 4).retrieve (fromBE4 b.peekBytes)).1,
        ((b.consume 4).retrieve (fromBE4 b.peekBytes)).2) := rfl

/-- Round trip through a buffer: once the full frame (and possibly
more) is readable, decode succeeds, returns exactly the encoded
payload, and consumes exactly `4 + length` bytes. -/
theorem decode_encode (b : Buffer) (p rest : List Nat) (hwf : b.wf)
    (hlen : p.length < 2 ^ 32) (hregion : b.peekBytes = encode p ++ rest) :
    ∃ b', decode b = some (p, b') ∧ b'.wf ∧ b'.peekBytes = rest ∧
      b'.readable = b.readable - (4 + p.length) := by
  have hreadable : b.readable = 4 + p.length + rest.length := by
    rw [Buffer.readable_eq_length_peekBytes, hregion]
    simp [encode, be32]
    omega
  have hfrom : fromBE4 b.peekBytes = p.length := by
    rw [hregion]
    exact fromBE4_be32 _ _ hlen
  have h4 : ¬ b.readable < 4 := by omega
  have hfull : ¬ b.readable < (4 + fromBE4 b.peekBytes) % 2 ^ 32 := by
    rw [hfrom]
    have hmle := Nat.mod_le (4 + p.length) (2 ^ 32)
    omega
  have hb1wf : (b.consume 4).wf := Buffer.wf_consume b 4 hwf
  have hb1peek : (b.consume 4).peekBytes = p ++ rest := by
    rw [Buffer.peekBytes_consume, hregion]
    have : min 4 b.readable = 4 := by omega
    rw [this]
    simp [encode, be32]
  have hb1read : (b.consume 4).readable = p.length + rest.length := by
    rw [Buffer.readable_consume]
    omega
  obtain ⟨hr1, hr2, hr3, hr4⟩ := Buffer.retrieve_spec (b.consume 4) p.length hb1wf
  have hmin : min p.length (b.consume 4).readable = p.length := by
    rw [hb1read]; omega
  refine ⟨((b.consume 4).retrieve p.length).2, ?_, hr4, ?_, ?_⟩
  · have hpay : ((b.consume 4).retrieve p.length).1 = p := by
      rw [hr1, hmin, hb1peek, List.take_append_of_le_length (le_refl _)]
      simp
    rw [decode_eq, if_neg h4, hfrom,
      if_neg (show ¬ b.readable < (4 + p.length) % 2 ^ 32 by
        have hmle := Nat.mod_le (4 + p.length) (2 ^ 32)
        omega),
      hpay]
  · rw [hr2, hmin, hb1peek]
    simp
  · rw [hr3, hmin, hb1read, hreadable]
    omega

/-- Decode refuses (and leaves the buffer untouched — the C++ code
mutates the buffer only on the success path) while fewer than the
32-bit threshold `(4 + length) mod 2^32` bytes are readable. -/
theorem decode_incomplete (b : Buffer)
    (h : b.readable < 4 ∨ b.readable < (4 + fromBE4 b.peekBytes) % 2 ^ 32) :
    decode b = none := by
  rcases h with h | h
  · simp [decode, h]
  · unfold decode
    split
    · rfl
    · simp only [h, if_true]

end Protocol

/-! ### Decimal numerals

Models of the library routines the codec relies on for integer text:
`std::to_string` (used by `Serializer<map>` for non-string keys and by
jsoncpp's writer for integral values) and `std::stoi` (used by
`Serializer<map>::deserialize` to recover non-string keys). -/

/-- Little-endian base-10 digits of `n`.  Fuelled so the definition is
structurally recursive (and therefore kernel-reducible); `natDigits`
supplies enough fuel. -/
def natDigitsAux : Nat → Nat → List Nat
  | 0, _ => []
  | fuel + 1, n => if n = 0 then [] else n % 10 :: natDigitsAux fuel (n / 10)

/-- Little-endian base-10 digits of `n`; agrees with `Nat.digits 10 n`. -/
def natDigits (n : Nat) : List Nat := natDigitsAux n n

theorem natDigitsAux_eq (fuel n : Nat) (h : n ≤ fuel) :
    natDigitsAux fuel n = Nat.digits 10 n := by
  induction fuel generalizing n with
  | zero =>
    have : n = 0 := by omega
    simp [natDigitsAux, this]
  | succ f ih =>
    by_cases hn : n = 0
    · simp [natDigitsAux, hn]
    · rw [natDigitsAux, if_neg hn,
        Nat.digits_def' (by norm_num : 1 < 10) (Nat.pos_of_ne_zero hn), ih]
      have := Nat.div_lt_self (Nat.pos_of_ne_zero hn) (by norm_num : 1 < 10)
      omega

theorem natDigits_eq (n : Nat) : natDigits n = Nat.digits 10 n :=
  natDigitsAux_eq n n le_rfl

/-- `std::to_string` on an unsigned value (also jsoncpp's
`valueToString` for integral JSON values): minimal decimal digit
text, most significant digit first. -/
def natToString (n : Nat) : String :=
  if n = 0 then "0" else ((natDigits n).reverse.map Nat.digitChar).asString

/-- `std::to_string` on an `int`: optional minus sign followed by the
decimal digits of the absolute value. -/
def intToString (i : Int) : String :=
  if i < 0 then "-" ++ natToString i.natAbs else natToString i.natAbs

/-- Numeric value of a decimal digit character (`c - '0'`). -/
def digitVal (c : Char) : Nat := c.toNat - 48

/-- Parse an unsigned decimal numeral: the digit fold `std::stoi`
performs, failing (`none` models a thrown `std::invalid_argument`) on
an empty string or a non-digit character. -/
def parseNatList (cs : List Char) : Option Nat :=
  if cs ≠ [] ∧ cs.all Char.isDigit then
    some (cs.foldl (fun n c => n * 10 + digitVal c) 0)
  else none

/-- Parse an optionally-signed decimal numeral. -/
def parseIntList : List Char → Option Int
  | [] => none
  | c :: rest =>
    if c = '-' then (parseNatList rest).map (fun n => -(n : Int))
    else (parseNatList (c :: rest)).map (fun n => (n : Int))

/-- Model of `std::stoi` as it is used on map keys produced by
`std::to_string`: parse an optionally-signed decimal numeral; a value
outside the `int` range models a thrown `std::out_of_range`.  (The
real `stoi` also skips leading whitespace and ignores trailing
characters; `std::to_string` never produces such inputs.) -/
def stoiModel (s : String) : Option Int :=
  (parseIntList s.toList).bind
    (fun i => if -(2 ^ 31) ≤ i ∧ i < 2 ^ 31 then some i else none)

theorem digitVal_digitChar (d : Nat) (h : d < 10) :
    digitVal (Nat.digitChar d) = d := by
  interval_cases d <;> rfl

theorem isDigit_digitChar (d : Nat) (h : d < 10) :
    (Nat.digitChar d).isDigit = true := by
  interval_cases d <;> rfl

theorem foldr_eq_ofDigits (L : List Nat) :
    L.foldr (fun d acc => acc * 10 + d) 0 = Nat.ofDigits 10 L := by
  induction L with
  | nil => simp [Nat.ofDigits]
  | cons d L ih => simp [Nat.ofDigits, ih]; ring

theorem parseNatList_natToString (n : Nat) :
    parseNatList (natToString n).toList = some n := by
  have hlt : ∀ d ∈ natDigits n, d < 10 := by
    rw [natDigits_eq]
    intro d hd
    exact Nat.digits_lt_base (by norm_num) hd
  by_cases hn : n = 0
  · subst hn
    rfl
  · rw [natToString, if_neg hn, List.toList_asString]
    have hne : natDigits n ≠ [] := by
      rw [natDigits_eq]
      exact Nat.digits_ne_nil_iff_ne_zero.mpr hn
    have hall : ((natDigits n).reverse.map Nat.digitChar).all Char.isDigit = true := by
      rw [List.all_eq_true]
      intro c hc
      rw [List.mem_map] at hc
      obtain ⟨d, hd, rfl⟩ := hc
      exact isDigit_digitChar d (hlt d (List.mem_reverse.mp hd))
    have hnonempty : (natDigits n).reverse.map Nat.digitChar ≠ [] := by
      simp [hne]
    rw [parseNatList, if_pos ⟨hnonempty, hall⟩]
    congr 1
    rw [List.foldl_map, List.foldl_reverse]
    have hcong : ∀ L : List Nat, (∀ d ∈ L, d < 10) →
        L.foldr (fun d acc => acc * 10 + digitVal (Nat.digitChar d)) 0
          = L.foldr (fun d acc => acc * 10 + d) 0 := by
      intro L
      induction L with
      | nil => intro _; rfl
      | cons d L ih =>
        intro hL
        simp only [List.foldr_cons]
        rw [ih (fun x hx => hL x (List.mem_cons_of_mem _ hx)),
          digitVal_digitChar d (hL d (List.mem_cons_self _ _))]
    rw [hcong _ hlt, foldr_eq_ofDigits, natDigits_eq, Nat.ofDigits_digits]

theorem natToString_all_digits (n : Nat) :
    ∀ c ∈ (natToString n).toList, c.isDigit = true := by
  by_cases hn : n = 0
  · subst hn
    intro c hc
    have h0 : (natToString 0).toList = ['0'] := rfl
    rw [h0, List.mem_singleton] at hc
    subst hc
    rfl
  · rw [natToString, if_neg hn, List.toList_asString]
    intro c hc
    rw [List.mem_map] at hc
    obtain ⟨d, hd, rfl⟩ := hc
    refine isDigit_digitChar d ?_
    rw [natDigits_eq] at hd
    exact Nat.digits_lt_base (by norm_num) (List.mem_reverse.mp hd)

theorem natToString_toList_ne_nil (n : Nat) : (natToString n).toList ≠ [] := by
  by_cases hn : n = 0
  · subst hn
    intro h
    cases h
  · rw [natToString, if_neg hn, List.toList_asString]
    simp only [ne_eq, List.map_eq_nil_iff, List.reverse_eq_nil_iff]
    rw [natDigits_eq]
    exact Nat.digits_ne_nil_iff_ne_zero.mpr hn

theorem parseIntList_cons (c : Char) (rest : List Char) :
    parseIntList (c :: rest) =
      if c = '-' then (parseNatList rest).map (fun n => -(n : Int))
      else (parseNatList (c :: rest)).map (fun n => (n : Int)) := rfl

theorem parseIntList_intToString (i : Int) :
    parseIntList (intToString i).toList = some i := by
  by_cases hi : i < 0
  · rw [intToString, if_pos hi]
    have hsplit : ("-" ++ natToString i.natAbs).toList
        = '-' :: (natToString i.natAbs).toList := rfl
    rw [hsplit, parseIntList_cons, if_pos rfl, parseNatList_natToString]
    show some (-(i.natAbs : Int)) = some i
    congr 1
    omega
  · rw [intToString, if_neg hi]
    rcases hcs : (natToString i.natAbs).toList with _ | ⟨c, rest⟩
    · exact absurd hcs (natToString_toList_ne_nil _)
    · have hcd : c.isDigit = true := by
        have := natToString_all_digits i.natAbs c
        rw [hcs] at this
        exact this (List.mem_cons_self _ _)
      have hcne : ¬ c = '-' := by
        intro h
        subst h
        cases hcd
      rw [parseIntList_cons, if_neg hcne, ← hcs, parseNatList_natToString]
      show some ((i.natAbs : Nat) : Int) = some i
      congr 1
      omega

/-- `std::stoi` recovers the key `std::to_string` produced, for keys in
the `int` range. -/
theorem stoiModel_intToString (i : Int) (h1 : -(2 ^ 31) ≤ i) (h2 : i < 2 ^ 31) :
    stoiModel (intToString i) = some i := by
  rw [stoiModel, parseIntList_intToString]
  show (if -(2 ^ 31) ≤ i ∧ i < 2 ^ 31 then some i else none) = some i
  rw [if_pos ⟨h1, h2⟩]

theorem intToString_injective : Function.Injective intToString := by
  intro i j h
  have := parseIntList_intToString i
  rw [h, parseIntList_intToString j] at this
  exact (Option.some_inj.mp this).symm

/-! ### Byte-lexicographic string order

C++ compares `std::string`s (and jsoncpp compares its `CZString` map
keys) with `memcmp` over the bytes.  On UTF-8 text this is exactly
codepoint-lexicographic order, defined here explicitly so that it is
kernel-computable. -/

/-- Lexicographic strict order on character lists by codepoint. -/
def charListLt : List Char → List Char → Bool
  | [], [] => false
  | [], _ :: _ => true
  | _ :: _, [] => false
  | a :: as, b :: bs =>
    if a.toNat < b.toNat then true
    else if b.toNat < a.toNat then false
    else charListLt as bs

/-- The `std::string` order: byte-lexicographic comparison. -/
def strLt (a b : String) : Bool := charListLt a.toList b.toList

theorem charListLt_irrefl : ∀ l : List Char, charListLt l l = false
  | [] => rfl
  | a :: as => by
    rw [charListLt, if_neg (lt_irrefl _), if_neg (lt_irrefl _)]
    exact charListLt_irrefl as

theorem charListLt_asymm : ∀ a b : List Char,
    charListLt a b = true → charListLt b a = false
  | [], [], h => by cases h
  | [], _ :: _, _ => rfl
  | _ :: _, [], h => by cases h
  | a :: as, b :: bs, h => by
    rw [charListLt] at h
    rw [charListLt]
    by_cases h1 : a.toNat < b.toNat
    · rw [if_neg (by omega : ¬ b.toNat < a.toNat), if_pos h1]
    · by_cases h2 : b.toNat < a.toNat
      · rw [if_neg h1, if_pos h2] at h
        cases h
      · rw [if_neg h1, if_neg h2] at h
        rw [if_neg h2, if_neg h1]
        exact charListLt_asymm as bs h

theorem charListLt_trans : ∀ a b c : List Char,
    charListLt a b = true → charListLt b c = true → charListLt a c = true
  | [], [], _, h1, _ => by cases h1
  | [], _ :: _, [], _, h2 => by cases h2
  | [], _ :: _, _ :: _, _, _ => rfl
  | _ :: _, [], _, h1, _ => by cases h1
  | _ :: _, _ :: _, [], _, h2 => by cases h2
  | a :: as, b :: bs, c :: cs, h1, h2 => by
    rw [charListLt] at h1 h2
    rw [charListLt]
    by_cases hab : a.toNat < b.toNat
    · by_cases hbc : b.toNat < c.toNat
      · rw [if_pos (by omega : a.toNat < c.toNat)]
      · by_cases hcb : c.toNat < b.toNat
        · rw [if_neg hbc, if_pos hcb] at h2
          cases h2
        · rw [if_pos (by omega : a.toNat < c.toNat)]
    · by_cases hba : b.toNat < a.toNat
      · rw [if_neg hab, if_pos hba] at h1
        cases h1
      · rw [if_neg hab, if_neg hba] at h1
        by_cases hbc : b.toNat < c.toNat
        · rw [if_pos (by omega : a.toNat < c.toNat)]
        · by_cases hcb : c.toNat < b.toNat
          · rw [if_neg hbc, if_pos hcb] at h2
            cases h2
          · rw [if_neg hbc, if_neg hcb] at h2
            rw [if_neg (by omega : ¬ a.toNat < c.toNat),
              if_neg (by omega : ¬ c.toNat < a.toNat)]
            exact charListLt_trans as bs cs h1 h2

theorem char_toNat_inj {a b : Char} (h : a.toNat = b.toNat) : a = b := by
  apply Char.ext
  apply UInt32.ext
  exact h

theorem charListLt_eq_of_not : ∀ a b : List Char,
    charListLt a b = false → charListLt b a = false → a = b
  | [], [], _, _ => rfl
  | [], _ :: _, h1, _ => by cases h1
  | _ :: _, [], _, h2 => by cases h2
  | a :: as, b :: bs, h1, h2 => by
    rw [charListLt] at h1 h2
    by_cases hab : a.toNat < b.toNat
    · rw [if_pos hab] at h1
      cases h1
    · by_cases hba : b.toNat < a.toNat
      · rw [if_pos hba] at h2
        cases h2
      · rw [if_neg hab, if_neg hba] at h1
        rw [if_neg hba, if_neg hab] at h2
        have hc : a = b := char_toNat_inj (by omega)
        rw [hc, charListLt_eq_of_not as bs h1 h2]

theorem strLt_irrefl (a : String) : strLt a a = false := charListLt_irrefl _

theorem strLt_asymm {a b : String} (h : strLt a b = true) : strLt b a = false :=
  charListLt_asymm _ _ h

theorem strLt_trans {a b c : String} (h1 : strLt a b = true)
    (h2 : strLt b c = true) : strLt a c = true :=
  charListLt_trans _ _ _ h1 h2

theorem strLt_eq_of_not {a b : String} (h1 : strLt a b = false)
    (h2 : strLt b a = false) : a = b :=
  String.toList_inj.mp (charListLt_eq_of_not _ _ h1 h2)

theorem strLt_ne {a b : String} (h : strLt a b = true) : a ≠ b := by
  intro he
  subst he
  rw [strLt_irrefl] at h
  cases h

/-! ### Json::Value (jsoncpp, as used by rpc_serializer_pfr.h)

The in-memory JSON value the codec builds.  jsoncpp stores integral
numbers as `intValue` (an `Int64` payload, from `Value(int)`) or
`uintValue` (a `UInt64` payload, from `Value(unsigned)` /
`Value(UInt64)`), floating values as `realValue` (a `double` payload),
and objects as a `std::map` sorted by key, which `getMemberNames`
iterates in ascending key order.  The `double` payload is modelled by
the exact rational it denotes: the codec only passes doubles through
unchanged (IEEE `float`→`double` widening is exact), so no rounding
ever occurs in the modelled fragment. -/

mutual
inductive JValue where
  | jnull
  | jbool (b : Bool)
  | jint (i : Int)
  | juint (u : Nat)
  | jreal (q : ℚ)
  | jstr (s : String)
  | jarr (elems : JArr)
  | jobj (members : JObj)
deriving DecidableEq
inductive JArr where
  | nil
  | cons (hd : JValue) (tl : JArr)
deriving DecidableEq
inductive JObj where
  | nil
  | cons (key : String) (val : JValue) (tl : JObj)
deriving DecidableEq
end

namespace JArr

/-- Number of elements of an array value. -/
def length : JArr → Nat
  | .nil => 0
  | .cons _ tl => length tl + 1

/-- Element access, `none` past the end. -/
def get? : JArr → Nat → Option JValue
  | .nil, _ => none
  | .cons hd _, 0 => some hd
  | .cons _ tl, n + 1 => get? tl n

end JArr

namespace JObj

/-- Number of members of an object value. -/
def length : JObj → Nat
  | .nil => 0
  | .cons _ _ tl => length tl + 1

/-- Member lookup by key (`Json::Value::find`). -/
def lookup (s : String) : JObj → Option JValue
  | .nil => none
  | .cons k v tl => if s = k then some v else lookup s tl

/-- All member keys are strictly greater than `k`. -/
def keysGt (k : String) : JObj → Bool
  | .nil => true
  | .cons k' _ tl => strLt k k' && keysGt k tl

/-- Member keys are strictly ascending — the invariant of jsoncpp's
`std::map<CZString, Value>` storage (C++ compares the key bytes
lexicographically; `String.lt` is the same order on UTF-8 text). -/
def sortedKeys : JObj → Bool
  | .nil => true
  | .cons k _ tl => keysGt k tl && sortedKeys tl

end JObj

/-- Assignment `obj[key] = v` into jsoncpp's sorted member map: insert
in ascending key position, replacing the value if the key is already
present. -/
def objInsert (k : String) (v : JValue) : JObj → JObj
  | .nil => .cons k v .nil
  | .cons k' v' tl =>
    if strLt k k' then .cons k v (.cons k' v' tl)
    else if k = k' then .cons k' v tl
    else .cons k' v' (objInsert k v tl)

/-- `Json::Value::size()`: element count for arrays and objects, `0`
for null and scalars. -/
def jsize : JValue → Nat
  | .jarr xs => xs.length
  | .jobj kvs => kvs.length
  | _ => 0

/-- Const `Json::Value::operator[](ArrayIndex)`: element of an array
(null when past the end), null on a null value, and an assertion
failure — modelled as `none`, i.e. a thrown exception — on any other
type.  The codec always guards the index by `size()`, so the
past-the-end branch is never reached from the serializer. -/
def jindex : JValue → Nat → Option JValue
  | .jarr xs, i => some ((xs.get? i).getD .jnull)
  | .jnull, _ => some .jnull
  | _, _ => none

/-- Truncation of a `double` toward zero (the C cast `Int(value_.real_)`
in jsoncpp's numeric conversions). -/
def ratTrunc (q : ℚ) : Int := q.num / (q.den : Int)

/-- `Json::Value::asInt`: exact for in-range `intValue`/`uintValue`,
truncating for in-range `realValue`, 0/1 for null and booleans, and a
thrown `LogicError` (`none`) otherwise. -/
def asInt : JValue → Option Int
  | .jint i => if -(2 ^ 31) ≤ i ∧ i < 2 ^ 31 then some i else none
  | .juint u => if u < 2 ^ 31 then some (u : Int) else none
  | .jreal q => if -(2 ^ 31) ≤ q ∧ q ≤ 2 ^ 31 - 1 then some (ratTrunc q) else none
  | .jnull => some 0
  | .jbool b => some (if b then 1 else 0)
  | _ => none

/-- `Json::Value::asUInt` (32-bit unsigned). -/
def asUInt : JValue → Option Nat
  | .jint i => if 0 ≤ i ∧ i < 2 ^ 32 then some i.toNat else none
  | .juint u => if u < 2 ^ 32 then some u else none
  | .jreal q => if 0 ≤ q ∧ q ≤ 2 ^ 32 - 1 then some (ratTrunc q).toNat else none
  | .jnull => some 0
  | .jbool b => some (if b then 1 else 0)
  | _ => none

/-- `Json::Value::asUInt64`. -/
def asUInt64 : JValue → Option Nat
  | .jint i => if 0 ≤ i then some i.toNat else none
  | .juint u => some u
  | .jreal q => if 0 ≤ q ∧ q ≤ 2 ^ 64 - 1 then some (ratTrunc q).toNat else none
  | .jnull => some 0
  | .jbool b => some (if b then 1 else 0)
  | _ => none

/-- `Json::Value::asBool`. -/
def asBool : JValue → Option Bool
  | .jbool b => some b
  | .jnull => some false
  | .jint i => some (decide (i ≠ 0))
  | .juint u => some (decide (u ≠ 0))
  | .jreal q => some (decide (q ≠ 0))
  | _ => none

/-- `Json::Value::asDouble`.  The modelled payload is exact, so the
conversions from integral values are the mathematical injections. -/
def asDouble : JValue → Option ℚ
  | .jreal q => some q
  | .jint i => some (i : ℚ)
  | .juint u => some (u : ℚ)
  | .jnull => some 0
  | .jbool b => some (if b then 1 else 0)
  | _ => none

/-- `Json::Value::asFloat`, modelled like `asDouble`: the narrowing
`float(double)` is exact on values that originated as floats, which is
the only case the codec produces. -/
def asFloat : JValue → Option ℚ := asDouble

/-- List-style induction principle for `JObj` (the mutual recursor
requires motives for the whole family; object members are not
descended into here). -/
theorem JObj.objInduction {motive : JObj → Prop} (hnil : motive .nil)
    (hcons : ∀ k v tl, motive tl → motive (.cons k v tl)) : ∀ o, motive o
  | .nil => hnil
  | .cons k v tl => hcons k v tl (JObj.objInduction hnil hcons tl)

/-- List-style induction principle for `JArr`. -/
theorem JArr.arrInduction {motive : JArr → Prop} (hnil : motive .nil)
    (hcons : ∀ hd tl, motive tl → motive (.cons hd tl)) : ∀ xs, motive xs
  | .nil => hnil
  | .cons hd tl => hcons hd tl (JArr.arrInduction hnil hcons tl)

namespace JObj

theorem keysGt_mono (s k : String) (h : strLt s k = true) :
    ∀ o : JObj, o.keysGt k = true → o.keysGt s = true := by
  intro o
  induction o using JObj.objInduction with
  | hnil => intro _; rfl
  | hcons k' v' tl ih =>
    intro hk
    rw [keysGt, Bool.and_eq_true] at hk ⊢
    exact ⟨strLt_trans h hk.1, ih hk.2⟩

theorem keysGt_objInsert (s k : String) (v : JValue) (o : JObj)
    (hlt : strLt s k = true) (h : o.keysGt s = true) :
    (objInsert k v o).keysGt s = true := by
  induction o using JObj.objInduction with
  | hnil => simp [objInsert, keysGt, hlt]
  | hcons k' v' tl ih =>
    rw [keysGt, Bool.and_eq_true] at h
    rw [objInsert]
    split
    · simp only [keysGt, Bool.and_eq_true]
      exact ⟨hlt, h.1, h.2⟩
    · split
      · simp only [keysGt, Bool.and_eq_true]
        exact ⟨h.1, h.2⟩
      · simp only [keysGt, Bool.and_eq_true]
        exact ⟨h.1, ih h.2⟩

theorem sortedKeys_objInsert (k : String) (v : JValue) (o : JObj)
    (h : o.sortedKeys = true) : (objInsert k v o).sortedKeys = true := by
  induction o using JObj.objInduction with
  | hnil => simp [objInsert, sortedKeys, keysGt]
  | hcons k' v' tl ih =>
    rw [sortedKeys, Bool.and_eq_true] at h
    rw [objInsert]
    split
    · rename_i h1
      simp only [sortedKeys, keysGt, Bool.and_eq_true]
      exact ⟨⟨h1, keysGt_mono k k' h1 tl h.1⟩, h.1, h.2⟩
    · split
      · simp only [sortedKeys, Bool.and_eq_true]
        exact ⟨h.1, h.2⟩
      · rename_i h1 h2
        have h1' : strLt k k' = false := by
          cases hx : strLt k k'
          · rfl
          · exact absurd hx h1
        have hk : strLt k' k = true := by
          cases hx : strLt k' k
          · exact absurd (strLt_eq_of_not hx h1').symm h2
          · rfl
        simp only [sortedKeys, Bool.and_eq_true]
        exact ⟨keysGt_objInsert k' k v tl hk h.1, ih h.2⟩

theorem lookup_objInsert (s k : String) (v : JValue) (o : JObj) :
    (objInsert k v o).lookup s = if s = k then some v else o.lookup s := by
  induction o using JObj.objInduction with
  | hnil => rfl
  | hcons k' v' tl ih =>
    rw [objInsert]
    split
    · rfl
    · split
      · rename_i h1 h2
        subst h2
        by_cases hs : s = k <;> simp [lookup, hs]
      · rename_i h1 h2
        by_cases hs : s = k'
        · subst hs
          have hsk : ¬ s = k := fun hh => h2 (hh ▸ rfl)
          simp [lookup, hsk]
        · rw [lookup, if_neg hs, ih, lookup, if_neg hs]

theorem lookup_eq_none_of_keysGt (s k : String) (o : JObj)
    (h : o.keysGt k = true) (hs : s = k ∨ strLt s k = true) :
    o.lookup s = none := by
  induction o using JObj.objInduction with
  | hnil => rfl
  | hcons k' v' tl ih =>
    rw [keysGt, Bool.and_eq_true] at h
    have hne : s ≠ k' := by
      rcases hs with rfl | hlt
      · exact strLt_ne h.1
      · exact strLt_ne (strLt_trans hlt h.1)
    rw [lookup, if_neg hne, ih h.2]

/-- Two sorted objects with the same lookup function are equal. -/
theorem ext_sorted (o₁ : JObj) : ∀ (o₂ : JObj), o₁.sortedKeys = true →
    o₂.sortedKeys = true → (∀ s, o₁.lookup s = o₂.lookup s) → o₁ = o₂ := by
  induction o₁ using JObj.objInduction with
  | hnil =>
    intro o₂ _ h₂ h
    cases o₂ with
    | nil => rfl
    | cons k v tl =>
      have := h k
      simp [lookup] at this
  | hcons k v tl ih =>
    intro o₂ h₁ h₂ h
    cases o₂ with
    | nil =>
      have := h k
      simp [lookup] at this
    | cons k' v' tl' =>
      rw [sortedKeys, Bool.and_eq_true] at h₁ h₂
      have hkk : k = k' := by
        by_cases hlt : strLt k k' = true
        · exfalso
          have e1 := h k
          have l1 : lookup k (JObj.cons k v tl) = some v := by simp [lookup]
          have l2 : lookup k (JObj.cons k' v' tl') = none := by
            rw [lookup, if_neg (strLt_ne hlt),
              lookup_eq_none_of_keysGt k k' tl' h₂.1 (Or.inr hlt)]
          rw [l1, l2] at e1
          cases e1
        · by_cases hgt : strLt k' k = true
          · exfalso
            have e1 := h k'
            have l1 : lookup k' (JObj.cons k' v' tl') = some v' := by simp [lookup]
            have l2 : lookup k' (JObj.cons k v tl) = none := by
              rw [lookup, if_neg (strLt_ne hgt),
                lookup_eq_none_of_keysGt k' k tl h₁.1 (Or.inr hgt)]
            rw [l1, l2] at e1
            cases e1
          · exact strLt_eq_of_not (Bool.not_eq_true _ ▸ hlt)
              (Bool.not_eq_true _ ▸ hgt)
      subst hkk
      have hv : v = v' := by
        have := h k
        simp only [lookup, if_pos rfl] at this
        exact Option.some_inj.mp this
      subst hv
      have htl : tl = tl' := by
        refine ih tl' h₁.2 h₂.2 ?_
        intro s
        by_cases hs : s = k
        · subst hs
          rw [lookup_eq_none_of_keysGt s s tl h₁.1 (Or.inl rfl),
            lookup_eq_none_of_keysGt s s tl' h₂.1 (Or.inl rfl)]
        · have := h s
          simp only [lookup, if_neg hs] at this
          exact this
      rw [htl]

end JObj

/-- `Json::Value::asString`: identity on strings, text conversions for
null, booleans and integral values.  jsoncpp also converts a
`realValue` through its floating-point formatter; that conversion is
outside the modelled fragment (`none` here) and no theorem depends on
it. -/
def asString : JValue → Option String
  | .jstr s => some s
  | .jnull => some ""
  | .jbool b => some (if b then "true" else "false")
  | .jint i => some (intToString i)
  | .juint u => some (natToString u)
  | _ => none

/-! ### The codec universe (rpc_serializer_pfr.h)

`Serializer<T>` is specialized for `int`, `uint8_t`, `uint64_t`,
`float`, `double`, `bool`, `std::string`, `std::vector<T>`,
`std::map<K,V>` / `std::unordered_map<K,V>`, `std::optional<T>`, and
aggregates (via `boost::pfr::for_each_field`, fields in declaration
order).  `Ty` is the universe of these instantiations; map keys are
covered at the two key instantiations the code distinguishes
(`std::string` keys used verbatim, integral keys through
`std::to_string` / `std::stoi`, here at `K = int`).

`CVal` is the untyped universe of C++ values of these types;
`hasTy v t` states that `v` is a value of the instantiation `t`
(numeric ranges enforced, map entries stored in ascending key order as
`std::map` does; an `unordered_map` value is represented by the same
sorted entry list, which is its identity as a map). -/

mutual
inductive Ty where
  | tint
  | tuint8
  | tuint64
  | tfloat
  | tdouble
  | tbool
  | tstr
  | topt (t : Ty)
  | tvec (t : Ty)
  | tmapInt (t : Ty)
  | tmapStr (t : Ty)
  | tagg (fields : TyList)
deriving DecidableEq
inductive TyList where
  | nil
  | cons (t : Ty) (tl : TyList)
deriving DecidableEq
end

mutual
inductive CVal where
  | vint (i : Int)
  | vuint8 (n : Nat)
  | vuint64 (n : Nat)
  | vfloat (q : ℚ)
  | vdouble (q : ℚ)
  | vbool (b : Bool)
  | vstr (s : String)
  | vnone
  | vsome (v : CVal)
  | vvec (vs : CVals)
  | vmapInt (es : IMap)
  | vmapStr (es : SMap)
  | vagg (fs : CVals)
deriving DecidableEq
inductive CVals where
  | nil
  | cons (v : CVal) (tl : CVals)
deriving DecidableEq
inductive IMap where
  | nil
  | cons (k : Int) (v : CVal) (tl : IMap)
deriving DecidableEq
inductive SMap where
  | nil
  | cons (k : String) (v : CVal) (tl : SMap)
deriving DecidableEq
end

/-- List-style induction principle for `CVals`. -/
theorem CVals.cvalsInduction {motive : CVals → Prop} (hnil : motive .nil)
    (hcons : ∀ v tl, motive tl → motive (.cons v tl)) : ∀ vs, motive vs
  | .nil => hnil
  | .cons v tl => hcons v tl (CVals.cvalsInduction hnil hcons tl)

/-- List-style induction principle for `IMap`. -/
theorem IMap.imapInduction {motive : IMap → Prop} (hnil : motive .nil)
    (hcons : ∀ k v tl, motive tl → motive (.cons k v tl)) : ∀ es, motive es
  | .nil => hnil
  | .cons k v tl => hcons k v tl (IMap.imapInduction hnil hcons tl)

/-- List-style induction principle for `SMap`. -/
theorem SMap.smapInduction {motive : SMap → Prop} (hnil : motive .nil)
    (hcons : ∀ k v tl, motive tl → motive (.cons k v tl)) : ∀ es, motive es
  | .nil => hnil
  | .cons k v tl => hcons k v tl (SMap.smapInduction hnil hcons tl)

/-- List-style induction principle for `TyList`. -/
theorem TyList.tyListInduction {motive : TyList → Prop} (hnil : motive .nil)
    (hcons : ∀ t tl, motive tl → motive (.cons t tl)) : ∀ ts, motive ts
  | .nil => hnil
  | .cons t tl => hcons t tl (TyList.tyListInduction hnil hcons tl)

namespace IMap

/-- Entry lookup in a `std::map<int, T>` value. -/
def lookup (k : Int) : IMap → Option CVal
  | .nil => none
  | .cons k' v tl => if k = k' then some v else lookup k tl

/-- All entry keys are strictly greater than `k`. -/
def keysGt (k : Int) : IMap → Bool
  | .nil => true
  | .cons k' _ tl => (decide (k < k')) && keysGt k tl

/-- Entry keys strictly ascending (`std::map` iteration order). -/
def sortedKeys : IMap → Bool
  | .nil => true
  | .cons k _ tl => keysGt k tl && sortedKeys tl

end IMap

/-- Assignment `m[k] = v` on a `std::map<int, T>` in sorted storage:
insert at the ascending position, replacing the value when the key is
present. -/
def imapInsert (k : Int) (v : CVal) : IMap → IMap
  | .nil => .cons k v .nil
  | .cons k' v' tl =>
    if k < k' then .cons k v (.cons k' v' tl)
    else if k = k' then .cons k' v tl
    else .cons k' v' (imapInsert k v tl)

namespace SMap

/-- Entry lookup in a `std::map<std::string, T>` value. -/
def lookup (k : String) : SMap → Option CVal
  | .nil => none
  | .cons k' v tl => if k = k' then some v else lookup k tl

/-- All entry keys are strictly greater than `k`. -/
def keysGt (k : String) : SMap → Bool
  | .nil => true
  | .cons k' _ tl => strLt k k' && keysGt k tl

/-- Entry keys strictly ascending (`std::map` iteration order). -/
def sortedKeys : SMap → Bool
  | .nil => true
  | .cons k _ tl => keysGt k tl && sortedKeys tl

end SMap

/-- Assignment `m[k] = v` on a `std::map<std::string, T>` in sorted
storage. -/
def smapInsert (k : String) (v : CVal) : SMap → SMap
  | .nil => .cons k v .nil
  | .cons k' v' tl =>
    if strLt k k' then .cons k v (.cons k' v' tl)
    else if k = k' then .cons k' v tl
    else .cons k' v' (smapInsert k v tl)

/-! Serialization (`Serializer<T>::serialize`).  Each case is the
respective specialization in rpc_serializer_pfr.h:

* the scalar specializations build the corresponding `Json::Value`
  (`int` → `intValue`; `uint8_t` through `static_cast<unsigned>` and
  `uint64_t` → `uintValue`; `float`/`double` → `realValue`);
* `optional<T>` serializes the payload, or null when empty;
* `vector<T>` builds a JSON array of the serialized items;
* `map`/`unordered_map` iterates the entries and assigns
  `obj[key_str] = serialize(value)`, where `key_str` is the key itself
  for string keys and `std::to_string(key)` otherwise;
* aggregates serialize their fields, in declaration order, into a JSON
  array. -/

mutual
def serialize : CVal → JValue
  | .vint i => .jint i
  | .vuint8 n => .juint n
  | .vuint64 n => .juint n
  | .vfloat q => .jreal q
  | .vdouble q => .jreal q
  | .vbool b => .jbool b
  | .vstr s => .jstr s
  | .vnone => .jnull
  | .vsome v => serialize v
  | .vvec vs => .jarr (serializeList vs)
  | .vmapInt es => .jobj (serializeIMap es .nil)
  | .vmapStr es => .jobj (serializeSMap es .nil)
  | .vagg fs => .jarr (serializeList fs)
def serializeList : CVals → JArr
  | .nil => .nil
  | .cons v tl => .cons (serialize v) (serializeList tl)
def serializeIMap : IMap → JObj → JObj
  | .nil, acc => acc
  | .cons k v tl, acc => serializeIMap tl (objInsert (intToString k) (serialize v) acc)
def serializeSMap : SMap → JObj → JObj
  | .nil, acc => acc
  | .cons k v tl, acc => serializeSMap tl (objInsert k (serialize v) acc)
end

/-! Value initialization `T result{}` performed by the aggregate
deserializer before it assigns any field: zero for arithmetic types,
empty for strings and containers, disengaged for optionals, and
recursively value-initialized fields for aggregate members. -/
mutual
def defaultVal : Ty → CVal
  | .tint => .vint 0
  | .tuint8 => .vuint8 0
  | .tuint64 => .vuint64 0
  | .tfloat => .vfloat 0
  | .tdouble => .vdouble 0
  | .tbool => .vbool false
  | .tstr => .vstr ""
  | .topt _ => .vnone
  | .tvec _ => .vvec .nil
  | .tmapInt _ => .vmapInt .nil
  | .tmapStr _ => .vmapStr .nil
  | .tagg ts => .vagg (defaultVals ts)
def defaultVals : TyList → CVals
  | .nil => .nil
  | .cons t tl => .cons (defaultVal t) (defaultVals tl)
end

/-- Elementwise deserialization of a JSON array (the range-`for` in
`Serializer<vector<T>>::deserialize`); a thrown exception (`none`)
propagates. -/
def JArr.mapOptC (f : JValue → Option CVal) : JArr → Option CVals
  | .nil => some .nil
  | .cons hd tl => do
    let v ← f hd
    let vs ← JArr.mapOptC f tl
    pure (.cons v vs)

/-- Range-`for` over an object value iterates its member values; used
when `Serializer<vector<T>>::deserialize` is handed an object. -/
def JObj.mapValsOptC (f : JValue → Option CVal) : JObj → Option CVals
  | .nil => some .nil
  | .cons _ v tl => do
    let x ← f v
    let xs ← JObj.mapValsOptC f tl
    pure (.cons x xs)

/-- The member loop of `Serializer<map<int,T>>::deserialize`: for each
member name in ascending order, `stoi` the key, deserialize the value,
and assign `m[k] = v`.  A throw in either step (`none`) aborts. -/
def JObj.foldIMap (f : JValue → Option CVal) : JObj → IMap → Option IMap
  | .nil, acc => some acc
  | .cons s jv tl, acc => do
    let k ← stoiModel s
    let v ← f jv
    JObj.foldIMap f tl (imapInsert k v acc)

/-- The member loop of `Serializer<map<string,T>>::deserialize`. -/
def JObj.foldSMap (f : JValue → Option CVal) : JObj → SMap → Option SMap
  | .nil, acc => some acc
  | .cons s jv tl, acc => do
    let v ← f jv
    JObj.foldSMap f tl (smapInsert s v acc)

/-! Deserialization (`Serializer<T>::deserialize`), by recursion on the
type instantiation:

* scalars go through the `Json::Value::as…` conversions
  (`uint8_t` additionally truncates through `static_cast<uint8_t>`);
* `optional<T>` maps null to `nullopt` and otherwise deserializes the
  payload;
* `vector<T>` iterates the value with a range-`for`: arrays yield
  their elements, objects their member values, and every other value
  an empty range;
* the map instantiations call `getMemberNames` (an assertion failure —
  a throw — on anything but an object or null, an empty list on null)
  and rebuild the `std::map` entry by entry;
* aggregates value-initialize the result, then assign each field from
  `json[idx]` while `idx < json.size()`, leaving later fields at their
  value-initialized state. -/

mutual
def deserialize : Ty → JValue → Option CVal
  | .tint, j => (asInt j).map .vint
  | .tuint8, j => (asUInt j).map (fun n => .vuint8 (n % 256))
  | .tuint64, j => (asUInt64 j).map .vuint64
  | .tfloat, j => (asFloat j).map .vfloat
  | .tdouble, j => (asDouble j).map .vdouble
  | .tbool, j => (asBool j).map .vbool
  | .tstr, j => (asString j).map .vstr
  | .topt t, j => if j = .jnull then some .vnone else (deserialize t j).map .vsome
  | .tvec t, .jarr xs => (JArr.mapOptC (fun j => deserialize t j) xs).map .vvec
  | .tvec t, .jobj kvs => (JObj.mapValsOptC (fun j => deserialize t j) kvs).map .vvec
  | .tvec _, _ => some (.vvec .nil)
  | .tmapInt t, .jobj kvs => (JObj.foldIMap (fun j => deserialize t j) kvs .nil).map .vmapInt
  | .tmapInt _, .jnull => some (.vmapInt .nil)
  | .tmapInt _, _ => none
  | .tmapStr t, .jobj kvs => (JObj.foldSMap (fun j => deserialize t j) kvs .nil).map .vmapStr
  | .tmapStr _, .jnull => some (.vmapStr .nil)
  | .tmapStr _, _ => none
  | .tagg ts, j => (deserializeFields ts 0 j).map .vagg
def deserializeFields : TyList → Nat → JValue → Option CVals
  | .nil, _, _ => some .nil
  | .cons t tl, idx, j => do
    let v ← if idx < jsize j then (jindex j idx).bind (fun x => deserialize t x)
            else some (defaultVal t)
    let vs ← deserializeFields tl (idx + 1) j
    pure (.cons v vs)
end

/-! Typing of C++ values by codec instantiations, with the numeric
ranges of the C++ types and the sorted-entry invariant of map
storage. -/
mutual
def hasTy : CVal → Ty → Bool
  | .vint i, .tint => decide (-(2 ^ 31) ≤ i) && decide (i < 2 ^ 31)
  | .vuint8 n, .tuint8 => decide (n < 2 ^ 8)
  | .vuint64 n, .tuint64 => decide (n < 2 ^ 64)
  | .vfloat _, .tfloat => true
  | .vdouble _, .tdouble => true
  | .vbool _, .tbool => true
  | .vstr _, .tstr => true
  | .vnone, .topt _ => true
  | .vsome v, .topt t => hasTy v t
  | .vvec vs, .tvec t => hasTyList vs t
  | .vmapInt es, .tmapInt t => imapWF es t
  | .vmapStr es, .tmapStr t => smapWF es t
  | .vagg fs, .tagg ts => hasTyFields fs ts
  | _, _ => false
def hasTyList : CVals → Ty → Bool
  | .nil, _ => true
  | .cons v tl, t => hasTy v t && hasTyList tl t
def imapWF : IMap → Ty → Bool
  | .nil, _ => true
  | .cons k v tl, t =>
    decide (-(2 ^ 31) ≤ k) && decide (k < 2 ^ 31) && IMap.keysGt k tl &&
      hasTy v t && imapWF tl t
def smapWF : SMap → Ty → Bool
  | .nil, _ => true
  | .cons k v tl, t => SMap.keysGt k tl && hasTy v t && smapWF tl t
def hasTyFields : CVals → TyList → Bool
  | .nil, .nil => true
  | .cons v vs, .cons t ts => hasTy v t && hasTyFields vs ts
  | _, _ => false
end

/-! Sorted-map lemmas for `IMap` (entries of a `std::map<int,T>`),
mirroring the `JObj` ones. -/

namespace IMap

theorem keysGt_mono_int (s k : Int) (h : s < k) :
    ∀ es : IMap, es.keysGt k = true → es.keysGt s = true := by
  intro es
  induction es using IMap.imapInduction with
  | hnil => intro _; rfl
  | hcons k' v' tl ih =>
    intro hk
    rw [keysGt, Bool.and_eq_true] at hk ⊢
    exact ⟨by simpa using lt_trans h (by simpa using hk.1), ih hk.2⟩

theorem keysGt_imapInsert (s k : Int) (v : CVal) (es : IMap)
    (hlt : s < k) (h : es.keysGt s = true) :
    (imapInsert k v es).keysGt s = true := by
  induction es using IMap.imapInduction with
  | hnil => simp [imapInsert, keysGt, hlt]
  | hcons k' v' tl ih =>
    rw [keysGt, Bool.and_eq_true] at h
    rw [imapInsert]
    split
    · simp only [keysGt, Bool.and_eq_true]
      exact ⟨by simpa using hlt, h.1, h.2⟩
    · split
      · simp only [keysGt, Bool.and_eq_true]
        exact ⟨h.1, h.2⟩
      · simp only [keysGt, Bool.and_eq_true]
        exact ⟨h.1, ih h.2⟩

theorem sortedKeys_imapInsert (k : Int) (v : CVal) (es : IMap)
    (h : es.sortedKeys = true) : (imapInsert k v es).sortedKeys = true := by
  induction es using IMap.imapInduction with
  | hnil => simp [imapInsert, sortedKeys, keysGt]
  | hcons k' v' tl ih =>
    rw [sortedKeys, Bool.and_eq_true] at h
    rw [imapInsert]
    split
    · rename_i h1
      simp only [sortedKeys, keysGt, Bool.and_eq_true]
      exact ⟨⟨by simpa using h1, keysGt_mono_int k k' h1 tl h.1⟩, h.1, h.2⟩
    · split
      · simp only [sortedKeys, Bool.and_eq_true]
        exact ⟨h.1, h.2⟩
      · rename_i h1 h2
        have hk : k' < k := lt_of_le_of_ne (not_lt.mp h1) (Ne.symm h2)
        simp only [sortedKeys, Bool.and_eq_true]
        exact ⟨keysGt_imapInsert k' k v tl hk h.1, ih h.2⟩

theorem lookup_imapInsert (s k : Int) (v : CVal) (es : IMap) :
    (imapInsert k v es).lookup s = if s = k then some v else es.lookup s := by
  induction es using IMap.imapInduction with
  | hnil => rfl
  | hcons k' v' tl ih =>
    rw [imapInsert]
    split
    · rfl
    · split
      · rename_i h1 h2
        subst h2
        by_cases hs : s = k <;> simp [lookup, hs]
      · rename_i h1 h2
        by_cases hs : s = k'
        · subst hs
          have hsk : ¬ s = k := fun hh => h2 (hh ▸ rfl)
          simp [lookup, hsk]
        · rw [lookup, if_neg hs, ih, lookup, if_neg hs]

theorem lookup_eq_none_of_keysGt_int (s k : Int) (es : IMap)
    (h : es.keysGt k = true) (hs : s ≤ k) : es.lookup s = none := by
  induction es using IMap.imapInduction with
  | hnil => rfl
  | hcons k' v' tl ih =>
    rw [keysGt, Bool.and_eq_true] at h
    have hlt : k < k' := by simpa using h.1
    rw [lookup, if_neg (lt_of_le_of_lt hs hlt).ne, ih h.2]

/-- Two sorted entry lists with the same lookup function are equal. -/
theorem ext_sorted_int (es₁ : IMap) : ∀ (es₂ : IMap), es₁.sortedKeys = true →
    es₂.sortedKeys = true → (∀ x, es₁.lookup x = es₂.lookup x) → es₁ = es₂ := by
  induction es₁ using IMap.imapInduction with
  | hnil =>
    intro es₂ _ h₂ h
    cases es₂ with
    | nil => rfl
    | cons k v tl =>
      have := h k
      simp [lookup] at this
  | hcons k v tl ih =>
    intro es₂ h₁ h₂ h
    cases es₂ with
    | nil =>
      have := h k
      simp [lookup] at this
    | cons k' v' tl' =>
      rw [sortedKeys, Bool.and_eq_true] at h₁ h₂
      have hkk : k = k' := by
        rcases lt_trichotomy k k' with hlt | heq | hgt
        · exfalso
          have e1 := h k
          have l1 : lookup k (IMap.cons k v tl) = some v := by simp [lookup]
          have l2 : lookup k (IMap.cons k' v' tl') = none := by
            rw [lookup, if_neg hlt.ne, lookup_eq_none_of_keysGt_int k k' tl' h₂.1 hlt.le]
          rw [l1, l2] at e1
          cases e1
        · exact heq
        · exfalso
          have e1 := h k'
          have l1 : lookup k' (IMap.cons k' v' tl') = some v' := by simp [lookup]
          have l2 : lookup k' (IMap.cons k v tl) = none := by
            rw [lookup, if_neg hgt.ne, lookup_eq_none_of_keysGt_int k' k tl h₁.1 hgt.le]
          rw [l1, l2] at e1
          cases e1
      subst hkk
      have hv : v = v' := by
        have := h k
        simp only [lookup, if_pos rfl] at this
        exact Option.some_inj.mp this
      subst hv
      have htl : tl = tl' := by
        refine ih tl' h₁.2 h₂.2 ?_
        intro s
        by_cases hs : s = k
        · subst hs
          rw [lookup_eq_none_of_keysGt_int s s tl h₁.1 le_rfl,
            lookup_eq_none_of_keysGt_int s s tl' h₂.1 le_rfl]
        · have := h s
          simp only [lookup, if_neg hs] at this
          exact this
      rw [htl]

end IMap

/-! Sorted-map lemmas for `SMap` (entries of a
`std::map<std::string,T>`), in the byte-lexicographic key order. -/

namespace SMap

theorem keysGt_mono_str (s k : String) (h : strLt s k = true) :
    ∀ es : SMap, es.keysGt k = true → es.keysGt s = true := by
  intro es
  induction es using SMap.smapInduction with
  | hnil => intro _; rfl
  | hcons k' v' tl ih =>
    intro hk
    rw [keysGt, Bool.and_eq_true] at hk ⊢
    exact ⟨strLt_trans h hk.1, ih hk.2⟩

theorem keysGt_smapInsert (s k : String) (v : CVal) (es : SMap)
    (hlt : strLt s k = true) (h : es.keysGt s = true) :
    (smapInsert k v es).keysGt s = true := by
  induction es using SMap.smapInduction with
  | hnil => simp [smapInsert, keysGt, hlt]
  | hcons k' v' tl ih =>
    rw [keysGt, Bool.and_eq_true] at h
    rw [smapInsert]
    split
    · simp only [keysGt, Bool.and_eq_true]
      exact ⟨hlt, h.1, h.2⟩
    · split
      · simp only [keysGt, Bool.and_eq_true]
        exact ⟨h.1, h.2⟩
      · simp only [keysGt, Bool.and_eq_true]
        exact ⟨h.1, ih h.2⟩

theorem sortedKeys_smapInsert (k : String) (v : CVal) (es : SMap)
    (h : es.sortedKeys = true) : (smapInsert k v es).sortedKeys = true := by
  induction es using SMap.smapInduction with
  | hnil => simp [smapInsert, sortedKeys, keysGt]
  | hcons k' v' tl ih =>
    rw [sortedKeys, Bool.and_eq_true] at h
    rw [smapInsert]
    split
    · rename_i h1
      simp only [sortedKeys, keysGt, Bool.and_eq_true]
      exact ⟨⟨h1, keysGt_mono_str k k' h1 tl h.1⟩, h.1, h.2⟩
    · split
      · simp only [sortedKeys, Bool.and_eq_true]
        exact ⟨h.1, h.2⟩
      · rename_i h1 h2
        have h1' : strLt k k' = false := by
          cases hx : strLt k k'
          · rfl
          · exact absurd hx h1
        have hk : strLt k' k = true := by
          cases hx : strLt k' k
          · exact absurd (strLt_eq_of_not hx h1').symm h2
          · rfl
        simp only [sortedKeys, Bool.and_eq_true]
        exact ⟨keysGt_smapInsert k' k v tl hk h.1, ih h.2⟩

theorem lookup_smapInsert (s k : String) (v : CVal) (es : SMap) :
    (smapInsert k v es).lookup s = if s = k then some v else es.lookup s := by
  induction es using SMap.smapInduction with
  | hnil => rfl
  | hcons k' v' tl ih =>
    rw [smapInsert]
    split
    · rfl
    · split
      · rename_i h1 h2
        subst h2
        by_cases hs : s = k <;> simp [lookup, hs]
      · rename_i h1 h2
        by_cases hs : s = k'
        · subst hs
          have hsk : ¬ s = k := fun hh => h2 (hh ▸ rfl)
          simp [lookup, hsk]
        · rw [lookup, if_neg hs, ih, lookup, if_neg hs]

theorem lookup_eq_none_of_keysGt_str (s k : String) (es : SMap)
    (h : es.keysGt k = true) (hs : s = k ∨ strLt s k = true) :
    es.lookup s = none := by
  induction es using SMap.smapInduction with
  | hnil => rfl
  | hcons k' v' tl ih =>
    rw [keysGt, Bool.and_eq_true] at h
    have hne : s ≠ k' := by
      rcases hs with rfl | hlt
      · exact strLt_ne h.1
      · exact strLt_ne (strLt_trans hlt h.1)
    rw [lookup, if_neg hne, ih h.2]

/-- Two sorted entry lists with the same lookup function are equal. -/
theorem ext_sorted_str (es₁ : SMap) : ∀ (es₂ : SMap), es₁.sortedKeys = true →
    es₂.sortedKeys = true → (∀ x, es₁.lookup x = es₂.lookup x) → es₁ = es₂ := by
  induction es₁ using SMap.smapInduction with
  | hnil =>
    intro es₂ _ h₂ h
    cases es₂ with
    | nil => rfl
    | cons k v tl =>
      have := h k
      simp [lookup] at this
  | hcons k v tl ih =>
    intro es₂ h₁ h₂ h
    cases es₂ with
    | nil =>
      have := h k
      simp [lookup] at this
    | cons k' v' tl' =>
      rw [sortedKeys, Bool.and_eq_true] at h₁ h₂
      have hkk : k = k' := by
        by_cases hlt : strLt k k' = true
        · exfalso
          have e1 := h k
          have l1 : lookup k (SMap.cons k v tl) = some v := by simp [lookup]
          have l2 : lookup k (SMap.cons k' v' tl') = none := by
            rw [lookup, if_neg (strLt_ne hlt),
              lookup_eq_none_of_keysGt_str k k' tl' h₂.1 (Or.inr hlt)]
          rw [l1, l2] at e1
          cases e1
        · by_cases hgt : strLt k' k = true
          · exfalso
            have e1 := h k'
            have l1 : lookup k' (SMap.cons k' v' tl') = some v' := by simp [lookup]
            have l2 : lookup k' (SMap.cons k v tl) = none := by
              rw [lookup, if_neg (strLt_ne hgt),
                lookup_eq_none_of_keysGt_str k' k tl h₁.1 (Or.inr hgt)]
            rw [l1, l2] at e1
            cases e1
          · exact strLt_eq_of_not (Bool.not_eq_true _ ▸ hlt)
              (Bool.not_eq_true _ ▸ hgt)
      subst hkk
      have hv : v = v' := by
        have := h k
        simp only [lookup, if_pos rfl] at this
        exact Option.some_inj.mp this
      subst hv
      have htl : tl = tl' := by
        refine ih tl' h₁.2 h₂.2 ?_
        intro s
        by_cases hs : s = k
        · subst hs
          rw [lookup_eq_none_of_keysGt_str s s tl h₁.1 (Or.inl rfl),
            lookup_eq_none_of_keysGt_str s s tl' h₂.1 (Or.inl rfl)]
        · have := h s
          simp only [lookup, if_neg hs] at this
          exact this
      rw [htl]

end SMap

/-- Pointwise property of all members of an object value. -/
def JObj.Forall (p : String → JValue → Prop) : JObj → Prop
  | .nil => True
  | .cons s v tl => p s v ∧ JObj.Forall p tl

theorem JObj.Forall_objInsert {p : String → JValue → Prop} {o : JObj}
    (k : String) (v : JValue) (hp : p k v) (h : JObj.Forall p o) :
    JObj.Forall p (objInsert k v o) := by
  induction o using JObj.objInduction with
  | hnil => exact ⟨hp, trivial⟩
  | hcons k' v' tl ih =>
    obtain ⟨h1, h2⟩ := h
    rw [Rpc.objInsert]
    split
    · exact ⟨hp, h1, h2⟩
    · split
      · rename_i _ he
        exact ⟨he ▸ hp, h2⟩
      · exact ⟨h1, ih h2⟩

/-- Pointwise property of all entries of an `IMap`. -/
def IMap.Forall (p : Int → CVal → Prop) : IMap → Prop
  | .nil => True
  | .cons k v tl => p k v ∧ IMap.Forall p tl

/-- Pointwise property of all entries of an `SMap`. -/
def SMap.Forall (p : String → CVal → Prop) : SMap → Prop
  | .nil => True
  | .cons k v tl => p k v ∧ SMap.Forall p tl

/-! The predicate `noOptOpt`: the type contains no `optional` directly
nested inside an `optional`.  (`Serializer<optional<T>>` encodes both
`nullopt` and `optional{nullopt}` as null, so round-tripping fails
exactly on such nesting.) -/
mutual
def noOptOpt : Ty → Bool
  | .topt (.topt _) => false
  | .topt t => noOptOpt t
  | .tvec t => noOptOpt t
  | .tmapInt t => noOptOpt t
  | .tmapStr t => noOptOpt t
  | .tagg ts => noOptOptList ts
  | _ => true
def noOptOptList : TyList → Bool
  | .nil => true
  | .cons t tl => noOptOpt t && noOptOptList tl
end

/-! Characterization of map serialization: `serializeIMap` /
`serializeSMap` produce a sorted object whose member at the key string
of `x` is the serialized entry at `x`. -/

theorem serializeIMap_sorted (es : IMap) : ∀ acc : JObj,
    acc.sortedKeys = true → (serializeIMap es acc).sortedKeys = true := by
  induction es using IMap.imapInduction with
  | hnil => intro acc h; exact h
  | hcons k v tl ih =>
    intro acc h
    rw [serializeIMap]
    exact ih _ (JObj.sortedKeys_objInsert _ _ _ h)

theorem serializeSMap_sorted (es : SMap) : ∀ acc : JObj,
    acc.sortedKeys = true → (serializeSMap es acc).sortedKeys = true := by
  induction es using SMap.smapInduction with
  | hnil => intro acc h; exact h
  | hcons k v tl ih =>
    intro acc h
    rw [serializeSMap]
    exact ih _ (JObj.sortedKeys_objInsert _ _ _ h)

theorem serializeIMap_forall {p : String → JValue → Prop} : ∀ (es : IMap),
    IMap.Forall (fun k v => p (intToString k) (serialize v)) es →
    ∀ acc : JObj, JObj.Forall p acc → JObj.Forall p (serializeIMap es acc) := by
  intro es
  induction es using IMap.imapInduction with
  | hnil => intro _ acc h; exact h
  | hcons k v tl ih =>
    intro hes acc hacc
    rw [serializeIMap]
    exact ih hes.2 _ (JObj.Forall_objInsert _ _ hes.1 hacc)

theorem serializeSMap_forall {p : String → JValue → Prop} : ∀ (es : SMap),
    SMap.Forall (fun k v => p k (serialize v)) es →
    ∀ acc : JObj, JObj.Forall p acc → JObj.Forall p (serializeSMap es acc) := by
  intro es
  induction es using SMap.smapInduction with
  | hnil => intro _ acc h; exact h
  | hcons k v tl ih =>
    intro hes acc hacc
    rw [serializeSMap]
    exact ih hes.2 _ (JObj.Forall_objInsert _ _ hes.1 hacc)

theorem lookup_serializeIMap (x : Int) (es : IMap) : ∀ acc : JObj,
    es.sortedKeys = true →
    JObj.lookup (intToString x) (serializeIMap es acc) =
      ((es.lookup x).map serialize).or (JObj.lookup (intToString x) acc) := by
  induction es using IMap.imapInduction with
  | hnil => intro acc _; rfl
  | hcons k v tl ih =>
    intro acc hs
    rw [IMap.sortedKeys, Bool.and_eq_true] at hs
    rw [serializeIMap, ih _ hs.2, JObj.lookup_objInsert]
    by_cases hx : x = k
    · subst hx
      rw [IMap.lookup_eq_none_of_keysGt_int x x tl hs.1 le_rfl, IMap.lookup, if_pos rfl,
        if_pos rfl]
      rfl
    · rw [IMap.lookup, if_neg hx, if_neg (fun hh => hx (intToString_injective hh))]

theorem lookup_serializeSMap (x : String) (es : SMap) : ∀ acc : JObj,
    es.sortedKeys = true →
    JObj.lookup x (serializeSMap es acc) =
      ((es.lookup x).map serialize).or (JObj.lookup x acc) := by
  induction es using SMap.smapInduction with
  | hnil => intro acc _; rfl
  | hcons k v tl ih =>
    intro acc hs
    rw [SMap.sortedKeys, Bool.and_eq_true] at hs
    rw [serializeSMap, ih _ hs.2, JObj.lookup_objInsert]
    by_cases hx : x = k
    · subst hx
      rw [SMap.lookup_eq_none_of_keysGt_str x x tl hs.1 (Or.inl rfl), SMap.lookup,
        if_pos rfl, if_pos rfl]
      rfl
    · rw [SMap.lookup, if_neg hx, if_neg hx]

/-! Characterization of the map deserialization loops. -/

theorem foldIMap_spec (f : JValue → Option CVal) : ∀ (o : JObj) (acc : IMap),
    JObj.Forall (fun s jv =>
      ∃ k₀ v₀, stoiModel s = some k₀ ∧ intToString k₀ = s ∧ f jv = some v₀) o →
    o.sortedKeys = true →
    ∃ m, JObj.foldIMap f o acc = some m ∧
      (acc.sortedKeys = true → m.sortedKeys = true) ∧
      (∀ x : Int, m.lookup x =
        (match JObj.lookup (intToString x) o with
         | some jv => f jv
         | none => acc.lookup x)) := by
  intro o
  induction o using JObj.objInduction with
  | hnil =>
    intro acc _ _
    exact ⟨acc, rfl, fun h => h, fun x => rfl⟩
  | hcons s jv tl ih =>
    intro acc hP hs
    obtain ⟨⟨k₀, v₀, hk₀, hks, hv₀⟩, hPtl⟩ := hP
    rw [JObj.sortedKeys, Bool.and_eq_true] at hs
    obtain ⟨m, hm, hsort, hlook⟩ := ih (imapInsert k₀ v₀ acc) hPtl hs.2
    have hred : JObj.foldIMap f (JObj.cons s jv tl) acc
        = JObj.foldIMap f tl (imapInsert k₀ v₀ acc) := by
      rw [JObj.foldIMap, hk₀, hv₀]
      rfl
    refine ⟨m, by rw [hred]; exact hm, ?_, ?_⟩
    · intro hacc
      exact hsort (IMap.sortedKeys_imapInsert _ _ _ hacc)
    · intro x
      rw [hlook x]
      by_cases hx : intToString x = s
      · have hxk : x = k₀ := intToString_injective (by rw [hks, hx])
        have hnone : JObj.lookup (intToString x) tl = none := by
          rw [hx]
          exact JObj.lookup_eq_none_of_keysGt s s tl hs.1 (Or.inl rfl)
        rw [hnone,
          show JObj.lookup (intToString x) (JObj.cons s jv tl) = some jv from by
            rw [JObj.lookup, if_pos hx]]
        show IMap.lookup x (imapInsert k₀ v₀ acc) = f jv
        rw [IMap.lookup_imapInsert, if_pos hxk, hv₀]
      · rw [show JObj.lookup (intToString x) (JObj.cons s jv tl)
            = JObj.lookup (intToString x) tl from by rw [JObj.lookup, if_neg hx]]
        cases htl : JObj.lookup (intToString x) tl with
        | some jv' => rfl
        | none =>
          have hxk : x ≠ k₀ := fun hh => hx (by rw [hh, hks])
          show IMap.lookup x (imapInsert k₀ v₀ acc) = IMap.lookup x acc
          rw [IMap.lookup_imapInsert, if_neg hxk]

theorem foldSMap_spec (f : JValue → Option CVal) : ∀ (o : JObj) (acc : SMap),
    JObj.Forall (fun _ jv => ∃ v₀, f jv = some v₀) o →
    o.sortedKeys = true →
    ∃ m, JObj.foldSMap f o acc = some m ∧
      (acc.sortedKeys = true → m.sortedKeys = true) ∧
      (∀ x : String, m.lookup x =
        (match JObj.lookup x o with
         | some jv => f jv
         | none => acc.lookup x)) := by
  intro o
  induction o using JObj.objInduction with
  | hnil =>
    intro acc _ _
    exact ⟨acc, rfl, fun h => h, fun x => rfl⟩
  | hcons s jv tl ih =>
    intro acc hP hs
    obtain ⟨⟨v₀, hv₀⟩, hPtl⟩ := hP
    rw [JObj.sortedKeys, Bool.and_eq_true] at hs
    obtain ⟨m, hm, hsort, hlook⟩ := ih (smapInsert s v₀ acc) hPtl hs.2
    have hred : JObj.foldSMap f (JObj.cons s jv tl) acc
        = JObj.foldSMap f tl (smapInsert s v₀ acc) := by
      rw [JObj.foldSMap, hv₀]
      rfl
    refine ⟨m, by rw [hred]; exact hm, ?_, ?_⟩
    · intro hacc
      exact hsort (SMap.sortedKeys_smapInsert _ _ _ hacc)
    · intro x
      rw [hlook x]
      by_cases hx : x = s
      · have hnone : JObj.lookup x tl = none := by
          subst hx
          exact JObj.lookup_eq_none_of_keysGt x x tl hs.1 (Or.inl rfl)
        rw [hnone,
          show JObj.lookup x (JObj.cons s jv tl) = some jv from by
            rw [JObj.lookup, if_pos hx]]
        show SMap.lookup x (smapInsert s v₀ acc) = f jv
        rw [SMap.lookup_smapInsert, if_pos hx, hv₀]
      · rw [show JObj.lookup x (JObj.cons s jv tl) = JObj.lookup x tl from by
          rw [JObj.lookup, if_neg hx]]
        cases htl : JObj.lookup x tl with
        | some jv' => rfl
        | none =>
          show SMap.lookup x (smapInsert s v₀ acc) = SMap.lookup x acc
          rw [SMap.lookup_smapInsert, if_neg hx]

/-! `imapWF` / `smapWF` unpacking. -/

theorem imapWF_sorted {t : Ty} : ∀ {es : IMap}, imapWF es t = true →
    es.sortedKeys = true := by
  intro es
  induction es using IMap.imapInduction with
  | hnil => intro _; rfl
  | hcons k v tl ih =>
    intro h
    simp only [imapWF, Bool.and_eq_true] at h
    obtain ⟨⟨⟨⟨_, _⟩, hk⟩, _⟩, hrest⟩ := h
    rw [IMap.sortedKeys, Bool.and_eq_true]
    exact ⟨hk, ih hrest⟩

theorem smapWF_sorted {t : Ty} : ∀ {es : SMap}, smapWF es t = true →
    es.sortedKeys = true := by
  intro es
  induction es using SMap.smapInduction with
  | hnil => intro _; rfl
  | hcons k v tl ih =>
    intro h
    simp only [smapWF, Bool.and_eq_true] at h
    obtain ⟨⟨hk, _⟩, hrest⟩ := h
    rw [SMap.sortedKeys, Bool.and_eq_true]
    exact ⟨hk, ih hrest⟩

theorem imapWF_lookup {t : Ty} : ∀ {es : IMap}, imapWF es t = true →
    ∀ {x w}, es.lookup x = some w → hasTy w t = true := by
  intro es
  induction es using IMap.imapInduction with
  | hnil => intro _ x w h; cases h
  | hcons k v tl ih =>
    intro h x w hl
    simp only [imapWF, Bool.and_eq_true] at h
    obtain ⟨⟨⟨⟨_, _⟩, _⟩, hv⟩, hrest⟩ := h
    rw [IMap.lookup] at hl
    by_cases hx : x = k
    · rw [if_pos hx] at hl
      exact (Option.some_inj.mp hl) ▸ hv
    · rw [if_neg hx] at hl
      exact ih hrest hl

theorem smapWF_lookup {t : Ty} : ∀ {es : SMap}, smapWF es t = true →
    ∀ {x w}, es.lookup x = some w → hasTy w t = true := by
  intro es
  induction es using SMap.smapInduction with
  | hnil => intro _ x w h; cases h
  | hcons k v tl ih =>
    intro h x w hl
    simp only [smapWF, Bool.and_eq_true] at h
    obtain ⟨⟨_, hv⟩, hrest⟩ := h
    rw [SMap.lookup] at hl
    by_cases hx : x = k
    · rw [if_pos hx] at hl
      exact (Option.some_inj.mp hl) ▸ hv
    · rw [if_neg hx] at hl
      exact ih hrest hl

theorem imapWF_good {t : Ty} (f : JValue → Option CVal)
    (hIH : ∀ v, hasTy v t = true → f (serialize v) = some v) :
    ∀ {es : IMap}, imapWF es t = true →
    IMap.Forall (fun k v =>
      ∃ k₀ v₀, stoiModel (intToString k) = some k₀ ∧
        intToString k₀ = intToString k ∧ f (serialize v) = some v₀) es := by
  intro es
  induction es using IMap.imapInduction with
  | hnil => intro _; trivial
  | hcons k v tl ih =>
    intro h
    simp only [imapWF, Bool.and_eq_true] at h
    obtain ⟨⟨⟨⟨hlo, hhi⟩, _⟩, hv⟩, hrest⟩ := h
    refine ⟨⟨k, v, ?_, rfl, hIH v hv⟩, ih hrest⟩
    exact stoiModel_intToString k (by simpa using hlo) (by simpa using hhi)

theorem smapWF_good {t : Ty} (f : JValue → Option CVal)
    (hIH : ∀ v, hasTy v t = true → f (serialize v) = some v) :
    ∀ {es : SMap}, smapWF es t = true →
    SMap.Forall (fun _ v => ∃ v₀, f (serialize v) = some v₀) es := by
  intro es
  induction es using SMap.smapInduction with
  | hnil => intro _; trivial
  | hcons k v tl ih =>
    intro h
    simp only [smapWF, Bool.and_eq_true] at h
    obtain ⟨⟨_, hv⟩, hrest⟩ := h
    exact ⟨⟨v, hIH v hv⟩, ih hrest⟩

/-- Round trip for `std::map<int,T>` / `std::unordered_map<int,T>`:
serializing the sorted entries into a JSON object and replaying the
member loop recovers exactly the original entries. -/
theorem deserializeIMap_roundtrip (t : Ty)
    (hIH : ∀ v, hasTy v t = true → deserialize t (serialize v) = some v)
    (es : IMap) (h : imapWF es t = true) :
    JObj.foldIMap (fun j => deserialize t j) (serializeIMap es .nil) .nil
      = some es := by
  have hsorted := imapWF_sorted h
  obtain ⟨m, hm, hsort, hlook⟩ := foldIMap_spec (fun j => deserialize t j)
    (serializeIMap es .nil) .nil
    (serializeIMap_forall es (imapWF_good _ hIH h) .nil trivial)
    (serializeIMap_sorted es .nil rfl)
  have hmes : m = es := by
    refine IMap.ext_sorted_int m es (hsort rfl) hsorted ?_
    intro x
    rw [hlook x]
    have hser := lookup_serializeIMap x es .nil hsorted
    cases hex : es.lookup x with
    | none =>
      have hser2 : JObj.lookup (intToString x) (serializeIMap es JObj.nil)
          = none := by
        rw [hser, hex]
        rfl
      rw [hser2]
      rfl
    | some w =>
      have hser2 : JObj.lookup (intToString x) (serializeIMap es JObj.nil)
          = some (serialize w) := by
        rw [hser, hex]
        rfl
      rw [hser2]
      exact hIH w (imapWF_lookup h hex)
  rw [hm, hmes]

/-- Round trip for `std::map<std::string,T>` /
`std::unordered_map<std::string,T>`. -/
theorem deserializeSMap_roundtrip (t : Ty)
    (hIH : ∀ v, hasTy v t = true → deserialize t (serialize v) = some v)
    (es : SMap) (h : smapWF es t = true) :
    JObj.foldSMap (fun j => deserialize t j) (serializeSMap es .nil) .nil
      = some es := by
  have hsorted := smapWF_sorted h
  obtain ⟨m, hm, hsort, hlook⟩ := foldSMap_spec (fun j => deserialize t j)
    (serializeSMap es .nil) .nil
    (serializeSMap_forall es (smapWF_good _ hIH h) .nil trivial)
    (serializeSMap_sorted es .nil rfl)
  have hmes : m = es := by
    refine SMap.ext_sorted_str m es (hsort rfl) hsorted ?_
    intro x
    rw [hlook x]
    have hser := lookup_serializeSMap x es .nil hsorted
    cases hex : es.lookup x with
    | none =>
      have hser2 : JObj.lookup x (serializeSMap es JObj.nil) = none := by
        rw [hser, hex]
        rfl
      rw [hser2]
      rfl
    | some w =>
      have hser2 : JObj.lookup x (serializeSMap es JObj.nil)
          = some (serialize w) := by
        rw [hser, hex]
        rfl
      rw [hser2]
      exact hIH w (smapWF_lookup h hex)
  rw [hm, hmes]

/-! ### `std::map<uint64_t, T>` — wide integer map keys

`Serializer<std::map<K,V>>` / `<unordered_map<K,V>>` is generic over
the key type `K`: every non-string key is written with
`std::to_string(key)` and read back with
`static_cast<K>(std::stoi(key))`.  `std::stoi` parses into `int`, so a
`uint64_t` key serializes fine for any value but deserialization
throws `std::out_of_range` as soon as a key is `≥ 2^31` (the throw is
caught by `Decoder::Decode`, which then reports failure).  `NMap` is
the sorted entry list of a `std::map<uint64_t, T>`; its values range
over the full `Ty` universe. -/

inductive NMap where
  | nil
  | cons (k : Nat) (v : CVal) (tl : NMap)
deriving DecidableEq

/-- List-style induction principle for `NMap`. -/
theorem NMap.nmapInduction {motive : NMap → Prop} (hnil : motive .nil)
    (hcons : ∀ k v tl, motive tl → motive (.cons k v tl)) : ∀ es, motive es
  | .nil => hnil
  | .cons k v tl => hcons k v tl (NMap.nmapInduction hnil hcons tl)

namespace NMap

/-- Entry lookup in a `std::map<uint64_t, T>` value. -/
def lookup (k : Nat) : NMap → Option CVal
  | .nil => none
  | .cons k' v tl => if k = k' then some v else lookup k tl

/-- All entry keys are strictly greater than `k`. -/
def keysGt (k : Nat) : NMap → Bool
  | .nil => true
  | .cons k' _ tl => (decide (k < k')) && keysGt k tl

/-- Entry keys strictly ascending (`std::map` iteration order). -/
def sortedKeys : NMap → Bool
  | .nil => true
  | .cons k _ tl => keysGt k tl && sortedKeys tl

/-- Pointwise property of all entries of an `NMap`. -/
def Forall (p : Nat → CVal → Prop) : NMap → Prop
  | .nil => True
  | .cons k v tl => p k v ∧ Forall p tl

end NMap

/-- Assignment `m[k] = v` on a `std::map<uint64_t, T>` in sorted
storage. -/
def nmapInsert (k : Nat) (v : CVal) : NMap → NMap
  | .nil => .cons k v .nil
  | .cons k' v' tl =>
    if k < k' then .cons k v (.cons k' v' tl)
    else if k = k' then .cons k' v tl
    else .cons k' v' (nmapInsert k v tl)

namespace NMap

theorem keysGt_mono_nat (s k : Nat) (h : s < k) :
    ∀ es : NMap, es.keysGt k = true → es.keysGt s = true := by
  intro es
  induction es using NMap.nmapInduction with
  | hnil => intro _; rfl
  | hcons k' v' tl ih =>
    intro hk
    rw [keysGt, Bool.and_eq_true] at hk ⊢
    exact ⟨by simpa using lt_trans h (by simpa using hk.1), ih hk.2⟩

theorem keysGt_nmapInsert (s k : Nat) (v : CVal) (es : NMap)
    (hlt : s < k) (h : es.keysGt s = true) :
    (nmapInsert k v es).keysGt s = true := by
  induction es using NMap.nmapInduction with
  | hnil => simp [nmapInsert, keysGt, hlt]
  | hcons k' v' tl ih =>
    rw [keysGt, Bool.and_eq_true] at h
    rw [nmapInsert]
    split
    · simp only [keysGt, Bool.and_eq_true]
      exact ⟨by simpa using hlt, h.1, h.2⟩
    · split
      · simp only [keysGt, Bool.and_eq_true]
        exact ⟨h.1, h.2⟩
      · simp only [keysGt, Bool.and_eq_true]
        exact ⟨h.1, ih h.2⟩

theorem sortedKeys_nmapInsert (k : Nat) (v : CVal) (es : NMap)
    (h : es.sortedKeys = true) : (nmapInsert k v es).sortedKeys = true := by
  induction es using NMap.nmapInduction with
  | hnil => simp [nmapInsert, sortedKeys, keysGt]
  | hcons k' v' tl ih =>
    rw [sortedKeys, Bool.and_eq_true] at h
    rw [nmapInsert]
    split
    · rename_i h1
      simp only [sortedKeys, keysGt, Bool.and_eq_true]
      exact ⟨⟨by simpa using h1, keysGt_mono_nat k k' h1 tl h.1⟩, h.1, h.2⟩
    · split
      · simp only [sortedKeys, Bool.and_eq_true]
        exact ⟨h.1, h.2⟩
      · rename_i h1 h2
        have hk : k' < k := lt_of_le_of_ne (not_lt.mp h1) (Ne.symm h2)
        simp only [sortedKeys, Bool.and_eq_true]
        exact ⟨keysGt_nmapInsert k' k v tl hk h.1, ih h.2⟩

theorem lookup_nmapInsert (s k : Nat) (v : CVal) (es : NMap) :
    (nmapInsert k v es).lookup s = if s = k then some v else es.lookup s := by
  induction es using NMap.nmapInduction with
  | hnil => rfl
  | hcons k' v' tl ih =>
    rw [nmapInsert]
    split
    · rfl
    · split
      · rename_i h1 h2
        subst h2
        by_cases hs : s = k <;> simp [lookup, hs]
      · rename_i h1 h2
        by_cases hs : s = k'
        · subst hs
          have hsk : ¬ s = k := fun hh => h2 (hh ▸ rfl)
          simp [lookup, hsk]
        · rw [lookup, if_neg hs, ih, lookup, if_neg hs]

theorem lookup_eq_none_of_keysGt_nat (s k : Nat) (es : NMap)
    (h : es.keysGt k = true) (hs : s ≤ k) : es.lookup s = none := by
  induction es using NMap.nmapInduction with
  | hnil => rfl
  | hcons k' v' tl ih =>
    rw [keysGt, Bool.and_eq_true] at h
    have hlt : k < k' := by simpa using h.1
    rw [lookup, if_neg (lt_of_le_of_lt hs hlt).ne, ih h.2]

/-- Two sorted entry lists with the same lookup function are equal. -/
theorem ext_sorted_nat (es₁ : NMap) : ∀ (es₂ : NMap), es₁.sortedKeys = true →
    es₂.sortedKeys = true → (∀ x, es₁.lookup x = es₂.lookup x) → es₁ = es₂ := by
  induction es₁ using NMap.nmapInduction with
  | hnil =>
    intro es₂ _ h₂ h
    cases es₂ with
    | nil => rfl
    | cons k v tl =>
      have := h k
      simp [lookup] at this
  | hcons k v tl ih =>
    intro es₂ h₁ h₂ h
    cases es₂ with
    | nil =>
      have := h k
      simp [lookup] at this
    | cons k' v' tl' =>
      rw [sortedKeys, Bool.and_eq_true] at h₁ h₂
      have hkk : k = k' := by
        rcases lt_trichotomy k k' with hlt | heq | hgt
        · exfalso
          have e1 := h k
          have l1 : lookup k (NMap.cons k v tl) = some v := by simp [lookup]
          have l2 : lookup k (NMap.cons k' v' tl') = none := by
            rw [lookup, if_neg hlt.ne, lookup_eq_none_of_keysGt_nat k k' tl' h₂.1 hlt.le]
          rw [l1, l2] at e1
          cases e1
        · exact heq
        · exfalso
          have e1 := h k'
          have l1 : lookup k' (NMap.cons k' v' tl') = some v' := by simp [lookup]
          have l2 : lookup k' (NMap.cons k v tl) = none := by
            rw [lookup, if_neg hgt.ne, lookup_eq_none_of_keysGt_nat k' k tl h₁.1 hgt.le]
          rw [l1, l2] at e1
          cases e1
      subst hkk
      have hv : v = v' := by
        have := h k
        simp only [lookup, if_pos rfl] at this
        exact Option.some_inj.mp this
      subst hv
      have htl : tl = tl' := by
        refine ih tl' h₁.2 h₂.2 ?_
        intro s
        by_cases hs : s = k
        · subst hs
          rw [lookup_eq_none_of_keysGt_nat s s tl h₁.1 le_rfl,
            lookup_eq_none_of_keysGt_nat s s tl' h₂.1 le_rfl]
        · have := h s
          rw [lookup, if_neg hs, lookup, if_neg hs] at this
          exact this
      rw [htl]

end NMap

/-! `std::to_string` / `std::stoi` on unsigned keys. -/

theorem intToString_coe_nat (k : Nat) : intToString (k : Int) = natToString k := by
  rw [intToString, if_neg (by omega)]
  simp

theorem natToString_injective : Function.Injective natToString := by
  intro a b h
  have := parseNatList_natToString a
  rw [h, parseNatList_natToString b] at this
  exact (Option.some_inj.mp this).symm

/-- `std::stoi` recovers an unsigned key below `2^31`. -/
theorem stoiModel_natToString (k : Nat) (h : k < 2 ^ 31) :
    stoiModel (natToString k) = some (k : Int) := by
  rw [← intToString_coe_nat]
  exact stoiModel_intToString _ (by omega) (by omega)

/-- `std::stoi` throws `std::out_of_range` on an unsigned key
`≥ 2^31`. -/
theorem stoiModel_natToString_none (k : Nat) (h : 2 ^ 31 ≤ k) :
    stoiModel (natToString k) = none := by
  have hp : parseIntList (natToString k).toList = some (k : Int) := by
    rw [← intToString_coe_nat]
    exact parseIntList_intToString _
  rw [stoiModel, hp, Option.some_bind]
  rw [if_neg (fun hc => absurd hc.2 (by omega))]

/-- `static_cast<uint64_t>` applied to the parsed `int` key. -/
def castUInt64 (i : Int) : Nat := (i % 2 ^ 64).toNat

theorem castUInt64_coe (k : Nat) (h : k < 2 ^ 64) : castUInt64 (k : Int) = k := by
  unfold castUInt64
  omega

/-- `Serializer<std::map<uint64_t,T>>::serialize`: each entry is
assigned at `std::to_string(key)`. -/
def serializeNMap : NMap → JObj → JObj
  | .nil, acc => acc
  | .cons k v tl, acc => serializeNMap tl (objInsert (natToString k) (serialize v) acc)

/-- The serialized `Json::Value` of a `std::map<uint64_t,T>`. -/
def serializeMapU (es : NMap) : JValue := .jobj (serializeNMap es .nil)

/-- The member loop of `Serializer<map<uint64_t,T>>::deserialize`: for
each member name in ascending order, `stoi` the key (a throw — `none`
— aborts the whole decode), cast it to `uint64_t`, deserialize the
value, and assign `m[k] = v`. -/
def JObj.foldNMap (f : JValue → Option CVal) : JObj → NMap → Option NMap
  | .nil, acc => some acc
  | .cons s jv tl, acc => do
    let k ← stoiModel s
    let v ← f jv
    JObj.foldNMap f tl (nmapInsert (castUInt64 k) v acc)

/-- `Serializer<std::map<uint64_t,T>>::deserialize` of a parsed value
(`getMemberNames` yields the members of an object, an empty list on
null, and throws on every other kind). -/
def deserializeMapU (t : Ty) : JValue → Option NMap
  | .jobj kvs => JObj.foldNMap (fun j => deserialize t j) kvs .nil
  | .jnull => some .nil
  | _ => none

/-- Well-typedness of a `std::map<uint64_t,T>` value: keys in the
`uint64_t` range, ascending, values of the element type. -/
def nmapWF : NMap → Ty → Bool
  | .nil, _ => true
  | .cons k v tl, t =>
    decide (k < 2 ^ 64) && NMap.keysGt k tl && hasTy v t && nmapWF tl t

/-- All keys below `2^31`, i.e. within what `std::stoi` can parse back
into an `int`. -/
def nmapKeysStoiSafe : NMap → Bool
  | .nil => true
  | .cons k _ tl => decide (k < 2 ^ 31) && nmapKeysStoiSafe tl

theorem serializeNMap_sorted (es : NMap) : ∀ acc : JObj,
    acc.sortedKeys = true → (serializeNMap es acc).sortedKeys = true := by
  induction es using NMap.nmapInduction with
  | hnil => intro acc h; exact h
  | hcons k v tl ih =>
    intro acc h
    rw [serializeNMap]
    exact ih _ (JObj.sortedKeys_objInsert _ _ _ h)

theorem serializeNMap_forall {p : String → JValue → Prop} : ∀ (es : NMap),
    NMap.Forall (fun k v => p (natToString k) (serialize v)) es →
    ∀ acc : JObj, JObj.Forall p acc → JObj.Forall p (serializeNMap es acc) := by
  intro es
  induction es using NMap.nmapInduction with
  | hnil => intro _ acc h; exact h
  | hcons k v tl ih =>
    intro hes acc hacc
    rw [serializeNMap]
    exact ih hes.2 _ (JObj.Forall_objInsert _ _ hes.1 hacc)

theorem lookup_serializeNMap (x : Nat) (es : NMap) : ∀ acc : JObj,
    es.sortedKeys = true →
    JObj.lookup (natToString x) (serializeNMap es acc) =
      ((es.lookup x).map serialize).or (JObj.lookup (natToString x) acc) := by
  induction es using NMap.nmapInduction with
  | hnil => intro acc _; rfl
  | hcons k v tl ih =>
    intro acc hs
    rw [NMap.sortedKeys, Bool.and_eq_true] at hs
    rw [serializeNMap, ih _ hs.2, JObj.lookup_objInsert]
    by_cases hx : x = k
    · subst hx
      rw [NMap.lookup_eq_none_of_keysGt_nat x x tl hs.1 le_rfl, NMap.lookup,
        if_pos rfl, if_pos rfl]
      rfl
    · rw [NMap.lookup, if_neg hx, if_neg (fun hh => hx (natToString_injective hh))]

theorem foldNMap_spec (f : JValue → Option CVal) : ∀ (o : JObj) (acc : NMap),
    JObj.Forall (fun s jv =>
      ∃ k₀ v₀, stoiModel s = some k₀ ∧ natToString (castUInt64 k₀) = s ∧
        f jv = some v₀) o →
    o.sortedKeys = true →
    ∃ m, JObj.foldNMap f o acc = some m ∧
      (acc.sortedKeys = true → m.sortedKeys = true) ∧
      (∀ x : Nat, m.lookup x =
        (match JObj.lookup (natToString x) o with
         | some jv => f jv
         | none => acc.lookup x)) := by
  intro o
  induction o using JObj.objInduction with
  | hnil =>
    intro acc _ _
    exact ⟨acc, rfl, fun h => h, fun x => rfl⟩
  | hcons s jv tl ih =>
    intro acc hP hs
    obtain ⟨⟨k₀, v₀, hk₀, hks, hv₀⟩, hPtl⟩ := hP
    rw [JObj.sortedKeys, Bool.and_eq_true] at hs
    obtain ⟨m, hm, hsort, hlook⟩ := ih (nmapInsert (castUInt64 k₀) v₀ acc) hPtl hs.2
    have hred : JObj.foldNMap f (JObj.cons s jv tl) acc
        = JObj.foldNMap f tl (nmapInsert (castUInt64 k₀) v₀ acc) := by
      rw [JObj.foldNMap, hk₀, hv₀]
      rfl
    refine ⟨m, by rw [hred]; exact hm, ?_, ?_⟩
    · intro hacc
      exact hsort (NMap.sortedKeys_nmapInsert _ _ _ hacc)
    · intro x
      rw [hlook x]
      by_cases hx : natToString x = s
      · have hxk : x = castUInt64 k₀ := natToString_injective (by rw [hks, hx])
        have hnone : JObj.lookup (natToString x) tl = none := by
          rw [hx]
          exact JObj.lookup_eq_none_of_keysGt s s tl hs.1 (Or.inl rfl)
        rw [hnone,
          show JObj.lookup (natToString x) (JObj.cons s jv tl) = some jv from by
            rw [JObj.lookup, if_pos hx]]
        show NMap.lookup x (nmapInsert (castUInt64 k₀) v₀ acc) = f jv
        rw [NMap.lookup_nmapInsert, if_pos hxk, hv₀]
      · rw [show JObj.lookup (natToString x) (JObj.cons s jv tl)
            = JObj.lookup (natToString x) tl from by rw [JObj.lookup, if_neg hx]]
        cases htl : JObj.lookup (natToString x) tl with
        | some jv' => rfl
        | none =>
          have hxk : x ≠ castUInt64 k₀ := fun hh => hx (by rw [hh, hks])
          show NMap.lookup x (nmapInsert (castUInt64 k₀) v₀ acc) = NMap.lookup x acc
          rw [NMap.lookup_nmapInsert, if_neg hxk]

theorem nmapWF_sorted {t : Ty} : ∀ {es : NMap}, nmapWF es t = true →
    es.sortedKeys = true := by
  intro es
  induction es using NMap.nmapInduction with
  | hnil => intro _; rfl
  | hcons k v tl ih =>
    intro h
    simp only [nmapWF, Bool.and_eq_true] at h
    obtain ⟨⟨⟨_, hk⟩, _⟩, hrest⟩ := h
    rw [NMap.sortedKeys, Bool.and_eq_true]
    exact ⟨hk, ih hrest⟩

theorem nmapWF_lookup {t : Ty} : ∀ {es : NMap}, nmapWF es t = true →
    ∀ {x w}, es.lookup x = some w → hasTy w t = true := by
  intro es
  induction es using NMap.nmapInduction with
  | hnil => intro _ x w h; cases h
  | hcons k v tl ih =>
    intro h x w hl
    simp only [nmapWF, Bool.and_eq_true] at h
    obtain ⟨⟨⟨_, _⟩, hv⟩, hrest⟩ := h
    rw [NMap.lookup] at hl
    by_cases hx : x = k
    · rw [if_pos hx] at hl
      exact (Option.some_inj.mp hl) ▸ hv
    · rw [if_neg hx] at hl
      exact ih hrest hl

theorem nmapWF_good {t : Ty} (f : JValue → Option CVal)
    (hIH : ∀ v, hasTy v t = true → f (serialize v) = some v) :
    ∀ {es : NMap}, nmapWF es t = true → nmapKeysStoiSafe es = true →
    NMap.Forall (fun k v =>
      ∃ k₀ v₀, stoiModel (natToString k) = some k₀ ∧
        natToString (castUInt64 k₀) = natToString k ∧
        f (serialize v) = some v₀) es := by
  intro es
  induction es using NMap.nmapInduction with
  | hnil => intro _ _; trivial
  | hcons k v tl ih =>
    intro h hs
    simp only [nmapWF, Bool.and_eq_true] at h
    obtain ⟨⟨⟨h64, _⟩, hv⟩, hrest⟩ := h
    simp only [nmapKeysStoiSafe, Bool.and_eq_true] at hs
    obtain ⟨h31, hsrest⟩ := hs
    refine ⟨⟨(k : Int), v, stoiModel_natToString k (by simpa using h31), ?_,
      hIH v hv⟩, ih hrest hsrest⟩
    rw [castUInt64_coe k (by simpa using h64)]

/-- Round trip for `std::map<uint64_t,T>` with every key below `2^31`:
serializing the sorted entries and replaying the member loop recovers
exactly the original entries. -/
theorem deserializeNMap_roundtrip (t : Ty)
    (hIH : ∀ v, hasTy v t = true → deserialize t (serialize v) = some v)
    (es : NMap) (h : nmapWF es t = true) (hsafe : nmapKeysStoiSafe es = true) :
    JObj.foldNMap (fun j => deserialize t j) (serializeNMap es .nil) .nil
      = some es := by
  have hsorted := nmapWF_sorted h
  obtain ⟨m, hm, hsort, hlook⟩ := foldNMap_spec (fun j => deserialize t j)
    (serializeNMap es .nil) .nil
    (serializeNMap_forall es (nmapWF_good _ hIH h hsafe) .nil trivial)
    (serializeNMap_sorted es .nil rfl)
  have hmes : m = es := by
    refine NMap.ext_sorted_nat m es (hsort rfl) hsorted ?_
    intro x
    rw [hlook x]
    have hser := lookup_serializeNMap x es .nil hsorted
    cases hex : es.lookup x with
    | none =>
      have hser2 : JObj.lookup (natToString x) (serializeNMap es JObj.nil)
          = none := by
        rw [hser, hex]
        rfl
      rw [hser2]
      rfl
    | some w =>
      have hser2 : JObj.lookup (natToString x) (serializeNMap es JObj.nil)
          = some (serialize w) := by
        rw [hser, hex]
        rfl
      rw [hser2]
      exact hIH w (nmapWF_lookup h hex)
  rw [hm, hmes]

theorem deserializeMapU_roundtrip (t : Ty)
    (hIH : ∀ v, hasTy v t = true → deserialize t (serialize v) = some v)
    (es : NMap) (h : nmapWF es t = true) (hsafe : nmapKeysStoiSafe es = true) :
    deserializeMapU t (serializeMapU es) = some es :=
  deserializeNMap_roundtrip t hIH es h hsafe

theorem JObj.Forall_lookup {p : String → JValue → Prop} : ∀ {o : JObj},
    JObj.Forall p o → ∀ {s v}, JObj.lookup s o = some v → p s v := by
  intro o
  induction o using JObj.objInduction with
  | hnil => intro _ s v h; cases h
  | hcons k jv tl ih =>
    intro hP s v hl
    rw [JObj.lookup] at hl
    by_cases hs : s = k
    · subst hs
      rw [if_pos rfl] at hl
      cases hl
      exact hP.1
    · rw [if_neg hs] at hl
      exact ih hP.2 hl

/-- The member loop fails as soon as a member name does not parse back
(`std::stoi` throws), provided every member is either such a bad key
or fully processable. -/
theorem foldNMap_none (f : JValue → Option CVal) : ∀ (o : JObj) (acc : NMap),
    JObj.Forall (fun s jv => stoiModel s = none ∨
      ((∃ k₀, stoiModel s = some k₀) ∧ ∃ v₀, f jv = some v₀)) o →
    ¬ JObj.Forall (fun s _ => ∃ k₀, stoiModel s = some k₀) o →
    JObj.foldNMap f o acc = none := by
  intro o
  induction o using JObj.objInduction with
  | hnil => intro acc _ hbad; exact absurd trivial hbad
  | hcons s jv tl ih =>
    intro acc hP hbad
    obtain ⟨hhead, hPtl⟩ := hP
    rcases hhead with hnone | ⟨⟨k₀, hk₀⟩, ⟨v₀, hv₀⟩⟩
    · rw [JObj.foldNMap, hnone]
      rfl
    · have hred : JObj.foldNMap f (JObj.cons s jv tl) acc
          = JObj.foldNMap f tl (nmapInsert (castUInt64 k₀) v₀ acc) := by
        rw [JObj.foldNMap, hk₀, hv₀]
        rfl
      rw [hred]
      refine ih _ hPtl (fun hFtl => hbad ⟨⟨k₀, hk₀⟩, hFtl⟩)

/-- A map whose keys are not all `stoi`-safe contains an entry with a
key `≥ 2^31`. -/
theorem nmapKeysStoiSafe_bad : ∀ {es : NMap}, nmapKeysStoiSafe es = false →
    ∃ k v, es.lookup k = some v ∧ 2 ^ 31 ≤ k := by
  intro es
  induction es using NMap.nmapInduction with
  | hnil => intro h; cases h
  | hcons k v tl ih =>
    intro h
    by_cases hk : k < 2 ^ 31
    · have htl : nmapKeysStoiSafe tl = false := by
        rw [nmapKeysStoiSafe, decide_eq_true hk, Bool.true_and] at h
        exact h
      obtain ⟨kb, vb, hlook, hge⟩ := ih htl
      refine ⟨kb, vb, ?_, hge⟩
      rw [NMap.lookup, if_neg (by omega)]
      exact hlook
    · refine ⟨k, v, ?_, by omega⟩
      rw [NMap.lookup, if_pos rfl]

/-- Deserialization of a serialized `std::map<uint64_t,T>` fails as
soon as some key is `≥ 2^31`: the member loop reaches that key's name
and `std::stoi` throws `std::out_of_range`. -/
theorem deserializeMapU_fail (t : Ty)
    (hIH : ∀ v, hasTy v t = true → deserialize t (serialize v) = some v)
    (es : NMap) (h : nmapWF es t = true) (hbad : nmapKeysStoiSafe es = false) :
    deserializeMapU t (serializeMapU es) = none := by
  have hsorted := nmapWF_sorted h
  have hforall : NMap.Forall (fun k v => stoiModel (natToString k) = none ∨
      ((∃ k₀, stoiModel (natToString k) = some k₀) ∧
        ∃ v₀, deserialize t (serialize v) = some v₀)) es := by
    clear hbad
    induction es using NMap.nmapInduction with
    | hnil => trivial
    | hcons k v tl ih =>
      simp only [nmapWF, Bool.and_eq_true] at h
      obtain ⟨⟨⟨h64, hk⟩, hv⟩, hrest⟩ := h
      refine ⟨?_, ih hrest (nmapWF_sorted hrest)⟩
      by_cases h31 : k < 2 ^ 31
      · exact Or.inr ⟨⟨(k : Int), stoiModel_natToString k h31⟩, ⟨v, hIH v hv⟩⟩
      · exact Or.inl (stoiModel_natToString_none k (by omega))
  obtain ⟨kb, vb, hlook, hge⟩ := nmapKeysStoiSafe_bad hbad
  have hser : JObj.lookup (natToString kb) (serializeNMap es JObj.nil)
      = some (serialize vb) := by
    rw [lookup_serializeNMap kb es .nil hsorted, hlook]
    rfl
  show JObj.foldNMap (fun j => deserialize t j) (serializeNMap es .nil) .nil
    = none
  refine foldNMap_none _ _ _ (serializeNMap_forall es hforall .nil trivial) ?_
  intro hF
  obtain ⟨k₀, hk₀⟩ := JObj.Forall_lookup hF hser
  rw [stoiModel_natToString_none kb hge] at hk₀
  cases hk₀

/-! Array helpers for the vector and aggregate cases. -/

namespace JArr

/-- Concatenation of array element lists. -/
def append : JArr → JArr → JArr
  | .nil, ys => ys
  | .cons x xs, ys => .cons x (append xs ys)

theorem length_append : ∀ xs ys : JArr, (append xs ys).length = xs.length + ys.length := by
  intro xs ys
  induction xs using JArr.arrInduction with
  | hnil => simp [append, length]
  | hcons x tl ih => simp [append, length, ih]; omega

theorem append_cons_assoc : ∀ (xs : JArr) (y : JValue) (ys : JArr),
    append (append xs (.cons y .nil)) ys = append xs (.cons y ys) := by
  intro xs y ys
  induction xs using JArr.arrInduction with
  | hnil => rfl
  | hcons x tl ih => rw [append, append, ih, append]

theorem get?_append_length : ∀ (xs : JArr) (y : JValue) (ys : JArr),
    (append xs (.cons y ys)).get? xs.length = some y := by
  intro xs y ys
  induction xs using JArr.arrInduction with
  | hnil => rfl
  | hcons x tl ih => exact ih

end JArr

/-- Round trip of the element loop of `Serializer<vector<T>>`: if `f`
recovers every well-typed element from its serialization, the loop
recovers the element list. -/
theorem mapOptC_serializeList (f : JValue → Option CVal) (t : Ty)
    (hIH : ∀ v, hasTy v t = true → f (serialize v) = some v) :
    ∀ vs : CVals, hasTyList vs t = true →
    JArr.mapOptC f (serializeList vs) = some vs := by
  intro vs
  induction vs using CVals.cvalsInduction with
  | hnil => intro _; rfl
  | hcons v tl ih =>
    intro h
    rw [hasTyList, Bool.and_eq_true] at h
    rw [serializeList, JArr.mapOptC, hIH v h.1, ih h.2]
    rfl

/-- Pointwise round trip of a field list against a type list. -/
def pointwiseRT : TyList → CVals → Prop
  | .nil, .nil => True
  | .cons t ts, .cons v vs => deserialize t (serialize v) = some v ∧ pointwiseRT ts vs
  | _, _ => False

/-- The aggregate field loop recovers the serialized fields: with the
serialized fields sitting after an arbitrary prefix of the JSON array,
the loop starting at the prefix length deserializes each field in
order (the guard `idx < json.size()` always holds). -/
theorem deserializeFields_roundtrip : ∀ (ts : TyList) (fs : CVals) (pre : JArr),
    pointwiseRT ts fs →
    deserializeFields ts pre.length (.jarr (pre.append (serializeList fs)))
      = some fs
  | .nil, .nil, pre, _ => rfl
  | .nil, .cons _ _, _, h => h.elim
  | .cons _ _, .nil, _, h => h.elim
  | .cons t ts, .cons v vs, pre, h => by
    obtain ⟨h1, h2⟩ := h
    rw [deserializeFields]
    have hsize : pre.length < jsize (.jarr (pre.append (serializeList (.cons v vs)))) := by
      show pre.length < (pre.append (serializeList (.cons v vs))).length
      rw [JArr.length_append, serializeList]
      show pre.length < pre.length + ((serializeList vs).length + 1)
      omega
    rw [if_pos hsize]
    have hidx : jindex (.jarr (pre.append (serializeList (.cons v vs)))) pre.length
        = some (serialize v) := by
      show some (((pre.append (serializeList (.cons v vs))).get? pre.length).getD .jnull)
        = some (serialize v)
      rw [show serializeList (.cons v vs) = .cons (serialize v) (serializeList vs) from rfl,
        JArr.get?_append_length]
      rfl
    rw [hidx, Option.some_bind, h1]
    have hrec := deserializeFields_roundtrip ts vs (pre.append (.cons (serialize v) .nil)) h2
    rw [JArr.append_cons_assoc, JArr.length_append] at hrec
    rw [show (JArr.cons (serialize v) JArr.nil).length = 1 from rfl] at hrec
    rw [show serializeList (CVals.cons v vs) = JArr.cons (serialize v) (serializeList vs) from rfl]
    rw [hrec]
    rfl

/-- The type is an `optional` instantiation. -/
def isOptTy : Ty → Bool
  | .topt _ => true
  | _ => false

/-- A well-typed value of a non-`optional` type never serializes to
null: only a disengaged `optional` does. -/
theorem serialize_ne_jnull : ∀ (w : CVal) (t : Ty), hasTy w t = true →
    isOptTy t = false → serialize w ≠ .jnull
  | .vint _, _, _, _ => fun hc => JValue.noConfusion hc
  | .vuint8 _, _, _, _ => fun hc => JValue.noConfusion hc
  | .vuint64 _, _, _, _ => fun hc => JValue.noConfusion hc
  | .vfloat _, _, _, _ => fun hc => JValue.noConfusion hc
  | .vdouble _, _, _, _ => fun hc => JValue.noConfusion hc
  | .vbool _, _, _, _ => fun hc => JValue.noConfusion hc
  | .vstr _, _, _, _ => fun hc => JValue.noConfusion hc
  | .vvec _, _, _, _ => fun hc => JValue.noConfusion hc
  | .vmapInt _, _, _, _ => fun hc => JValue.noConfusion hc
  | .vmapStr _, _, _, _ => fun hc => JValue.noConfusion hc
  | .vagg _, _, _, _ => fun hc => JValue.noConfusion hc
  | .vnone, t, h, ho => by
    cases t <;> first | exact Bool.noConfusion h | exact Bool.noConfusion ho
  | .vsome _, t, h, ho => by
    cases t <;> first | exact Bool.noConfusion h | exact Bool.noConfusion ho

/-! Structural size of a type, for strong induction. -/
mutual
def tySize : Ty → Nat
  | .tint => 1
  | .tuint8 => 1
  | .tuint64 => 1
  | .tfloat => 1
  | .tdouble => 1
  | .tbool => 1
  | .tstr => 1
  | .topt t => tySize t + 1
  | .tvec t => tySize t + 1
  | .tmapInt t => tySize t + 1
  | .tmapStr t => tySize t + 1
  | .tagg ts => tyListSize ts + 1
def tyListSize : TyList → Nat
  | .nil => 0
  | .cons t tl => tySize t + tyListSize tl
end

theorem tySize_pos (t : Ty) : 0 < tySize t := by
  cases t <;> simp [tySize]

/-- Unpacking `noOptOpt` at an `optional`: the payload type is not
itself an `optional` and recursively satisfies the predicate. -/
theorem noOptOpt_topt {t : Ty} (h : noOptOpt (.topt t) = true) :
    isOptTy t = false ∧ noOptOpt t = true := by
  cases t <;> simp_all [noOptOpt, isOptTy]

/-- Core round trip of the codec: a well-typed value of any
instantiation without directly-nested optionals deserializes from its
own serialization back to itself.  (Strong induction on the structural
size of the type.) -/
theorem roundtrip_core : ∀ (n : Nat) (t : Ty) (v : CVal), tySize t ≤ n →
    noOptOpt t = true → hasTy v t = true →
    deserialize t (serialize v) = some v := by
  intro n
  induction n with
  | zero =>
    intro t v hsz _ _
    exact absurd hsz (by have := tySize_pos t; omega)
  | succ n ih =>
    intro t v hsz hno hty
    cases t with
    | tint =>
      cases v <;> try exact Bool.noConfusion hty
      rename_i i
      simp only [hasTy, Bool.and_eq_true, decide_eq_true_eq] at hty
      simp only [serialize, deserialize, asInt]
      rw [if_pos hty]
      rfl
    | tuint8 =>
      cases v <;> try exact Bool.noConfusion hty
      rename_i m
      simp only [hasTy, decide_eq_true_eq] at hty
      simp only [serialize, deserialize, asUInt]
      rw [if_pos (by omega : m < 2 ^ 32)]
      simp only [Option.map_some']
      rw [Nat.mod_eq_of_lt (by omega)]
    | tuint64 =>
      cases v <;> try exact Bool.noConfusion hty
      rfl
    | tfloat =>
      cases v <;> try exact Bool.noConfusion hty
      rfl
    | tdouble =>
      cases v <;> try exact Bool.noConfusion hty
      rfl
    | tbool =>
      cases v <;> try exact Bool.noConfusion hty
      rfl
    | tstr =>
      cases v <;> try exact Bool.noConfusion hty
      rfl
    | topt t' =>
      obtain ⟨hopt, hno'⟩ := noOptOpt_topt hno
      cases v <;> try exact Bool.noConfusion hty
      case vnone => rfl
      case vsome w =>
        have hw : hasTy w t' = true := hty
        have hser := serialize_ne_jnull w t' hw hopt
        have hszw : tySize t' ≤ n := by
          simp only [tySize] at hsz
          omega
        show deserialize (.topt t') (serialize w) = some (.vsome w)
        simp only [deserialize]
        rw [if_neg hser, ih t' w hszw hno' hw]
        rfl
    | tvec t' =>
      cases v <;> try exact Bool.noConfusion hty
      rename_i vs
      have hno' : noOptOpt t' = true := hno
      have hszw : tySize t' ≤ n := by
        simp only [tySize] at hsz
        omega
      have hvs : hasTyList vs t' = true := hty
      simp only [serialize, deserialize]
      rw [mapOptC_serializeList (fun j => deserialize t' j) t'
        (fun w hw => ih t' w hszw hno' hw) vs hvs]
      rfl
    | tmapInt t' =>
      cases v <;> try exact Bool.noConfusion hty
      rename_i es
      have hno' : noOptOpt t' = true := hno
      have hszw : tySize t' ≤ n := by
        simp only [tySize] at hsz
        omega
      have hes : imapWF es t' = true := hty
      simp only [serialize, deserialize]
      rw [deserializeIMap_roundtrip t' (fun w hw => ih t' w hszw hno' hw) es hes]
      rfl
    | tmapStr t' =>
      cases v <;> try exact Bool.noConfusion hty
      rename_i es
      have hno' : noOptOpt t' = true := hno
      have hszw : tySize t' ≤ n := by
        simp only [tySize] at hsz
        omega
      have hes : smapWF es t' = true := hty
      simp only [serialize, deserialize]
      rw [deserializeSMap_roundtrip t' (fun w hw => ih t' w hszw hno' hw) es hes]
      rfl
    | tagg ts =>
      cases v <;> try exact Bool.noConfusion hty
      rename_i fs
      have hsz' : tyListSize ts ≤ n := by
        simp only [tySize] at hsz
        omega
      have hfields : ∀ ts' : TyList, tyListSize ts' ≤ n → noOptOptList ts' = true →
          ∀ fs' : CVals, hasTyFields fs' ts' = true → pointwiseRT ts' fs' := by
        intro ts'
        induction ts' using TyList.tyListInduction with
        | hnil =>
          intro _ _ fs'
          cases fs' with
          | nil => intro _; trivial
          | cons a b => intro hf; exact Bool.noConfusion hf
        | hcons t₀ tl ihl =>
          intro hszl hnol fs'
          cases fs' with
          | nil => intro hf; exact Bool.noConfusion hf
          | cons v₀ vtl =>
            intro hf
            rw [hasTyFields, Bool.and_eq_true] at hf
            rw [noOptOptList, Bool.and_eq_true] at hnol
            simp only [tyListSize] at hszl
            exact ⟨ih t₀ v₀ (by omega) hnol.1 hf.1, ihl (by omega) hnol.2 vtl hf.2⟩
      have hP := hfields ts hsz' hno fs hty
      simp only [serialize, deserialize]
      have hfr := deserializeFields_roundtrip ts fs .nil hP
      rw [show JArr.nil.length = 0 from rfl,
        show JArr.nil.append (serializeList fs) = serializeList fs from rfl] at hfr
      rw [hfr]
      rfl

/-- Round trip of the codec, packaged: for every instantiation `t`
without directly-nested optionals and every value `v` of `t`,
deserializing the serialization yields `v` again, and re-serializing
the result reproduces the original `Json::Value` exactly. -/
theorem serialize_roundtrip (t : Ty) (v : CVal) (hno : noOptOpt t = true)
    (hty : hasTy v t = true) :
    deserialize t (serialize v) = some v := by
  exact roundtrip_core (tySize t) t v le_rfl hno hty

/-! ### Encoder / Decoder (encoder.h)

`Encoder::Encode` serializes into a growing JSON array buffer;
`Bytes()` writes that array through jsoncpp's compact writer.
`Decoder::New` parses the document back (replacing it by an empty
array on a parse failure or a non-array document) and `Decode` reads
the element at the current position.  The byte string between
`Bytes()` and `Decoder::New` is jsoncpp's compact JSON text; its
writer/parser pair is the identity on the in-memory array, so the
decoder here receives the encoder's array.  (The text itself is
modelled separately below for the wire-format claims.) -/

/-- Append at the end of a JSON array (`Json::Value::append`). -/
def JArr.push : JArr → JValue → JArr
  | .nil, j => .cons j .nil
  | .cons x xs, j => .cons x (JArr.push xs j)

/-- `Encoder` state: the internal JSON array buffer. -/
structure Encoder where
  buffer : JArr
deriving DecidableEq

/-- `Encoder::New()`: empty array buffer. -/
def Encoder.New : Encoder := ⟨.nil⟩

/-- `Encoder::Encode(value)`: serialize and append to the buffer. -/
def Encoder.encodeVal (e : Encoder) (v : CVal) : Encoder :=
  ⟨e.buffer.push (serialize v)⟩

/-- A sequence of `Encode` calls. -/
def Encoder.encodeAll (e : Encoder) : CVals → Encoder
  | .nil => e
  | .cons v vs => (e.encodeVal v).encodeAll vs

/-- `Decoder` state: the parsed JSON array and the read position. -/
structure Decoder where
  buffer : JArr
  index : Nat
deriving DecidableEq

/-- `Decoder::New(data)` applied to bytes produced by
`Encoder::Bytes`: the same array, position `0`. -/
def Decoder.New (buf : JArr) : Decoder := ⟨buf, 0⟩

/-- `Decoder::Decode<T>(value)`: `false` (`none`) once the position
has passed the buffer; otherwise deserialize the element at the
position and advance — a thrown exception is caught and reported as
`false` with the position not advanced. -/
def Decoder.decodeVal (d : Decoder) (t : Ty) : Option (CVal × Decoder) :=
  if d.index < d.buffer.length then
    match d.buffer.get? d.index with
    | none => none
    | some j => (deserialize t j).map (fun v => (v, ⟨d.buffer, d.index + 1⟩))
  else none

/-- A sequence of `Decode` calls at the given instantiations, all
required to succeed. -/
def decodeSeq (d : Decoder) : TyList → Option (CVals × Decoder)
  | .nil => some (.nil, d)
  | .cons t ts =>
    match d.decodeVal t with
    | none => none
    | some (v, d') =>
      match decodeSeq d' ts with
      | none => none
      | some (vs, d'') => some (.cons v vs, d'')

/-- Number of instantiations in a list. -/
def TyList.length : TyList → Nat
  | .nil => 0
  | .cons _ tl => TyList.length tl + 1

theorem JArr.push_eq_append (xs : JArr) (j : JValue) :
    JArr.push xs j = xs.append (.cons j .nil) := by
  induction xs using JArr.arrInduction with
  | hnil => rfl
  | hcons x tl ih => rw [JArr.push, ih, JArr.append]

theorem encodeAll_buffer : ∀ (vs : CVals) (e : Encoder),
    (e.encodeAll vs).buffer = e.buffer.append (serializeList vs) := by
  intro vs
  induction vs using CVals.cvalsInduction with
  | hnil =>
    intro e
    show e.buffer = e.buffer.append .nil
    induction e.buffer using JArr.arrInduction with
    | hnil => rfl
    | hcons x tl ih => rw [JArr.append, ← ih]
  | hcons v tl ih =>
    intro e
    show ((e.encodeVal v).encodeAll tl).buffer = _
    rw [ih, Encoder.encodeVal, JArr.push_eq_append, JArr.append_cons_assoc]
    rfl

/-- Pointwise round trip follows from well-typedness (over types
without directly-nested optionals). -/
theorem pointwiseRT_of_typed : ∀ (ts : TyList) (vs : CVals),
    noOptOptList ts = true → hasTyFields vs ts = true → pointwiseRT ts vs := by
  intro ts
  induction ts using TyList.tyListInduction with
  | hnil =>
    intro vs hno hty
    cases vs with
    | nil => trivial
    | cons a b => exact Bool.noConfusion hty
  | hcons t tl ih =>
    intro vs hno hty
    cases vs with
    | nil => exact Bool.noConfusion hty
    | cons v vtl =>
      rw [noOptOptList, Bool.and_eq_true] at hno
      rw [hasTyFields, Bool.and_eq_true] at hty
      exact ⟨serialize_roundtrip t v hno.1 hty.1, ih vtl hno.2 hty.2⟩

/-- Sequential `Decode` calls recover sequentially encoded values:
with the encoded elements sitting after an arbitrary prefix and the
position at the prefix length, the calls succeed one by one and leave
the position just past the consumed elements. -/
theorem decodeSeq_roundtrip : ∀ (ts : TyList) (vs : CVals) (pre : JArr),
    pointwiseRT ts vs →
    decodeSeq ⟨pre.append (serializeList vs), pre.length⟩ ts
      = some (vs, ⟨pre.append (serializeList vs), pre.length + ts.length⟩)
  | .nil, .nil, pre, _ => rfl
  | .nil, .cons _ _, _, h => h.elim
  | .cons _ _, .nil, _, h => h.elim
  | .cons t ts, .cons v vs, pre, h => by
    obtain ⟨h1, h2⟩ := h
    have hsl : serializeList (CVals.cons v vs)
        = JArr.cons (serialize v) (serializeList vs) := rfl
    have hlt : pre.length < (pre.append (serializeList (.cons v vs))).length := by
      rw [JArr.length_append, hsl]
      show pre.length < pre.length + ((serializeList vs).length + 1)
      omega
    have hget : (pre.append (serializeList (.cons v vs))).get? pre.length
        = some (serialize v) := by
      rw [hsl, JArr.get?_append_length]
    have hstep : Decoder.decodeVal ⟨pre.append (serializeList (.cons v vs)), pre.length⟩ t
        = (deserialize t (serialize v)).map
            (fun w => (w, (⟨pre.append (serializeList (.cons v vs)),
              pre.length + 1⟩ : Decoder))) := by
      rw [Decoder.decodeVal, if_pos hlt, hget]
    have hdv : Decoder.decodeVal ⟨pre.append (serializeList (.cons v vs)), pre.length⟩ t
        = some (v, (⟨pre.append (serializeList (.cons v vs)),
            pre.length + 1⟩ : Decoder)) := by
      rw [hstep, h1]
      rfl
    have hrec := decodeSeq_roundtrip ts vs (pre.append (.cons (serialize v) .nil)) h2
    rw [JArr.append_cons_assoc, JArr.length_append,
      show (JArr.cons (serialize v) JArr.nil).length = 1 from rfl] at hrec
    rw [decodeSeq, hdv]
    show (match decodeSeq (⟨pre.append (serializeList (CVals.cons v vs)),
        pre.length + 1⟩ : Decoder) ts with
      | none => none
      | some (vs', d'') => some (CVals.cons v vs', d'')) =
      some (CVals.cons v vs,
        (⟨pre.append (serializeList (CVals.cons v vs)),
          pre.length + (TyList.cons t ts).length⟩ : Decoder))
    rw [show pre.append (serializeList (CVals.cons v vs))
        = pre.append (JArr.cons (serialize v) (serializeList vs)) from rfl, hrec]
    have harith : pre.length + 1 + TyList.length ts
        = pre.length + TyList.length (TyList.cons t ts) := by
      rw [TyList.length]
      omega
    rw [harith]

/-! Aggregate decoding from a shorter array: the remaining fields keep
their value-initialized state (`T result{}`). -/

/-- Concatenation of type lists. -/
def TyList.append : TyList → TyList → TyList
  | .nil, ys => ys
  | .cons t tl, ys => .cons t (TyList.append tl ys)

/-- Concatenation of value lists. -/
def CVals.append : CVals → CVals → CVals
  | .nil, ys => ys
  | .cons v tl, ys => .cons v (CVals.append tl ys)

/-- Once the position has passed `json.size()`, the remaining fields
are left value-initialized and the loop succeeds. -/
theorem deserializeFields_defaults : ∀ (ts : TyList) (idx : Nat) (j : JValue),
    jsize j ≤ idx → deserializeFields ts idx j = some (defaultVals ts) := by
  intro ts
  induction ts using TyList.tyListInduction with
  | hnil => intro idx j _; rfl
  | hcons t tl ih =>
    intro idx j hle
    rw [deserializeFields, if_neg (by omega : ¬ idx < jsize j)]
    rw [ih (idx + 1) j (by omega)]
    rfl

/-- Aggregate decoding from an array carrying only the first fields:
the present elements are deserialized in order and the missing
trailing fields are value-initialized — the loop still succeeds. -/
theorem deserializeFields_short : ∀ (ts₁ : TyList) (fs : CVals) (ts₂ : TyList)
    (pre : JArr), pointwiseRT ts₁ fs →
    deserializeFields (ts₁.append ts₂) pre.length
        (.jarr (pre.append (serializeList fs)))
      = some (fs.append (defaultVals ts₂))
  | .nil, .nil, ts₂, pre, _ => by
    show deserializeFields ts₂ pre.length (.jarr (pre.append (serializeList .nil)))
      = some (defaultVals ts₂)
    refine deserializeFields_defaults ts₂ pre.length _ ?_
    show (pre.append (serializeList .nil)).length ≤ pre.length
    rw [JArr.length_append]
    show pre.length + (0 : Nat) ≤ pre.length
    omega
  | .nil, .cons _ _, _, _, h => h.elim
  | .cons _ _, .nil, _, _, h => h.elim
  | .cons t ts, .cons v vs, ts₂, pre, h => by
    obtain ⟨h1, h2⟩ := h
    have hsl : serializeList (CVals.cons v vs)
        = JArr.cons (serialize v) (serializeList vs) := rfl
    have hsize : pre.length
        < jsize (.jarr (pre.append (serializeList (.cons v vs)))) := by
      show pre.length < (pre.append (serializeList (.cons v vs))).length
      rw [JArr.length_append, hsl]
      show pre.length < pre.length + ((serializeList vs).length + 1)
      omega
    have hidx : jindex (.jarr (pre.append (serializeList (.cons v vs)))) pre.length
        = some (serialize v) := by
      show some (((pre.append (serializeList (.cons v vs))).get? pre.length).getD .jnull)
        = some (serialize v)
      rw [hsl, JArr.get?_append_length]
      rfl
    show deserializeFields (TyList.cons t (ts.append ts₂)) pre.length
        (.jarr (pre.append (serializeList (.cons v vs))))
      = some (CVals.cons v (vs.append (defaultVals ts₂)))
    rw [deserializeFields, if_pos hsize, hidx, Option.some_bind, h1]
    have hrec := deserializeFields_short ts vs ts₂
      (pre.append (.cons (serialize v) .nil)) h2
    rw [JArr.append_cons_assoc, JArr.length_append,
      show (JArr.cons (serialize v) JArr.nil).length = 1 from rfl] at hrec
    rw [hsl]
    rw [hrec]
    rfl

/-! ### The byte layer: jsoncpp's compact writer (`Encoder::Bytes`)

`Encoder::Bytes` serializes the buffer with a `StreamWriterBuilder`
whose indentation is `""`: elements are comma-separated with no
whitespace, strings are quoted with the default escaping
(`emitUTF8 = false`: control characters and non-ASCII code points as
`\uXXXX`), and integral values are written as decimal text.  The
`realValue` (double) text conversion is left outside the modelled
fragment (`none`); no theorem touches it. -/

/-- Four lowercase hex digits (the `\uXXXX` payload). -/
def hex4 (n : Nat) : List Char :=
  [Nat.digitChar (n / 4096 % 16), Nat.digitChar (n / 256 % 16),
   Nat.digitChar (n / 16 % 16), Nat.digitChar (n % 16)]

/-- Escaping of one character in jsoncpp's quoted-string writer. -/
def escapeChar (c : Char) : List Char :=
  if c = '"' then ['\\', '"']
  else if c = '\\' then ['\\', '\\']
  else if c.toNat = 8 then ['\\', 'b']
  else if c.toNat = 12 then ['\\', 'f']
  else if c.toNat = 10 then ['\\', 'n']
  else if c.toNat = 13 then ['\\', 'r']
  else if c.toNat = 9 then ['\\', 't']
  else if c.toNat < 32 then '\\' :: 'u' :: hex4 c.toNat
  else if c.toNat < 128 then [c]
  else if c.toNat < 65536 then '\\' :: 'u' :: hex4 c.toNat
  else '\\' :: 'u' :: hex4 (55296 + (c.toNat - 65536) / 1024)
    ++ '\\' :: 'u' :: hex4 (56320 + (c.toNat - 65536) % 1024)

/-- Escape every character. -/
def escapeList : List Char → List Char
  | [] => []
  | c :: cs => escapeChar c ++ escapeList cs

/-- jsoncpp `valueToQuotedString`. -/
def quotedString (s : String) : String :=
  "\"" ++ (escapeList s.toList).asString ++ "\""

mutual
def jsonWrite : JValue → Option String
  | .jnull => some "null"
  | .jbool b => some (if b then "true" else "false")
  | .jint i => some (intToString i)
  | .juint u => some (natToString u)
  | .jreal _ => none
  | .jstr s => some (quotedString s)
  | .jarr xs => (jsonWriteArr xs).map (fun body => "[" ++ body ++ "]")
  | .jobj kvs => (jsonWriteObj kvs).map (fun body => "\x7b" ++ body ++ "\x7d")
def jsonWriteArr : JArr → Option String
  | .nil => some ""
  | .cons x .nil => jsonWrite x
  | .cons x tl => do
    let hd ← jsonWrite x
    let rest ← jsonWriteArr tl
    pure (hd ++ "," ++ rest)
def jsonWriteObj : JObj → Option String
  | .nil => some ""
  | .cons k v .nil => (jsonWrite v).map (fun body => quotedString k ++ ":" ++ body)
  | .cons k v tl => do
    let hd ← jsonWrite v
    let rest ← jsonWriteObj tl
    pure (quotedString k ++ ":" ++ hd ++ "," ++ rest)
end

/-- `Encoder::Bytes()`: the buffer array written as one compact JSON
document. -/
def Encoder.Bytes (e : Encoder) : Option String := jsonWrite (.jarr e.buffer)

/-- A character the quoted-string writer passes through unchanged. -/
def plainChar (c : Char) : Bool :=
  (decide (c ≠ '"')) && (decide (c ≠ '\\')) && (decide (32 ≤ c.toNat))
    && (decide (c.toNat < 128))

theorem escapeChar_plain {c : Char} (h : plainChar c = true) : escapeChar c = [c] := by
  simp only [plainChar, Bool.and_eq_true, decide_eq_true_eq] at h
  obtain ⟨⟨⟨h1, h2⟩, h3⟩, h4⟩ := h
  rw [escapeChar, if_neg h1, if_neg h2, if_neg (by omega), if_neg (by omega),
    if_neg (by omega), if_neg (by omega), if_neg (by omega), if_neg (by omega),
    if_pos h4]

theorem escapeList_plain : ∀ cs : List Char, (∀ c ∈ cs, plainChar c = true) →
    escapeList cs = cs := by
  intro cs
  induction cs with
  | nil => intro _; rfl
  | cons c tl ih =>
    intro h
    rw [escapeList, escapeChar_plain (h c (List.mem_cons_self _ _)),
      ih (fun x hx => h x (List.mem_cons_of_mem _ hx))]
    rfl

theorem quotedString_plain (s : String) (h : ∀ c ∈ s.toList, plainChar c = true) :
    quotedString s = "\"" ++ s ++ "\"" := by
  rw [quotedString, escapeList_plain _ h, String.asString_toList]

/-! ### Claim theorems for the codec (C1, C6, C7) -/

/-- C1 (counterexample): the round-trip law fails as stated, in two
ways.  (1) The supported type `optional<optional<int>>` with value
`optional{nullopt}` encodes to the JSON document `[null]`; decoding
succeeds but yields `nullopt`, a different value — both encodings
collapse to null.  (2) The supported type `std::map<uint64_t, int>`
with the single entry at key `2^31` encodes fine (the key is written
with `std::to_string`) but decoding fails: the deserializer parses the
key back with `std::stoi`, which throws `std::out_of_range` for values
outside the `int` range, so `Decode` reports failure instead of
returning the map. -/
theorem codec_roundtrip_counterexample :
    hasTy (.vsome .vnone) (.topt (.topt .tint)) = true ∧
    decodeSeq (Decoder.New (Encoder.New.encodeAll
        (.cons (.vsome .vnone) .nil)).buffer)
        (.cons (.topt (.topt .tint)) .nil)
      = some (.cons .vnone .nil, ⟨.cons .jnull .nil, 1⟩) ∧
    CVals.cons CVal.vnone CVals.nil ≠ CVals.cons (CVal.vsome CVal.vnone) CVals.nil ∧
    nmapWF (.cons (2 ^ 31) (.vint 0) .nil) .tint = true ∧
    deserializeMapU .tint (serializeMapU (.cons (2 ^ 31) (.vint 0) .nil)) = none :=
  ⟨by decide, by decide, by decide, by decide, by decide⟩

/-- C1 (amended): the codec round trip, over every supported
instantiation.  (1) For every sequence of types built from the scalar
types, strings, `optional` (not directly nested in another
`optional`), `vector`, aggregates, and maps with `int` or `string`
keys, and every well-typed value sequence, encoding with
`Encoder::Encode` and decoding the produced document with
`Decoder::Decode` yields exactly the original values (so re-encoding
the decoded values reproduces the same bytes, the serialization being
a function of the values).  (2) A map with a wider integer key type —
modelled at `std::map<uint64_t, T>` over every supported element type
`T` — round-trips exactly when every key is below `2^31`: within that
range `std::stoi` recovers each `std::to_string`-written key, and
(3) with any key `≥ 2^31` the decode fails, `std::stoi` throwing
`std::out_of_range`. -/
theorem codec_roundtrip_amended :
    (∀ (ts : TyList) (vs : CVals), noOptOptList ts = true →
      hasTyFields vs ts = true →
      decodeSeq (Decoder.New (Encoder.New.encodeAll vs).buffer) ts
        = some (vs, ⟨(Encoder.New.encodeAll vs).buffer, ts.length⟩)) ∧
    (∀ (t : Ty) (es : NMap), noOptOpt t = true → nmapWF es t = true →
      nmapKeysStoiSafe es = true →
      deserializeMapU t (serializeMapU es) = some es) ∧
    (∀ (t : Ty) (es : NMap), noOptOpt t = true → nmapWF es t = true →
      nmapKeysStoiSafe es = false →
      deserializeMapU t (serializeMapU es) = none) := by
  refine ⟨?_, ?_, ?_⟩
  · intro ts vs hno hty
    have hbuf : (Encoder.New.encodeAll vs).buffer = serializeList vs := by
      rw [encodeAll_buffer]
      rfl
    rw [hbuf]
    have hrt := decodeSeq_roundtrip ts vs .nil (pointwiseRT_of_typed ts vs hno hty)
    rw [show JArr.nil.append (serializeList vs) = serializeList vs from rfl,
      show JArr.nil.length = 0 from rfl, Nat.zero_add] at hrt
    exact hrt
  · intro t es hno hwf hsafe
    exact deserializeMapU_roundtrip t
      (fun v hv => serialize_roundtrip t v hno hv) es hwf hsafe
  · intro t es hno hwf hbad
    exact deserializeMapU_fail t
      (fun v hv => serialize_roundtrip t v hno hv) es hwf hbad

/-- C1 (witness): the amended round trip at a concrete value of each
listed kind — int, string, optional, vector, int-keyed map,
string-keyed map, aggregate, double, uint8 — and at a `uint64_t`-keyed
map with keys `1` and `2^31 - 1` (round trip succeeds) versus key
`2^31` (decode fails). -/
theorem codec_roundtrip_witness :
    decodeSeq (Decoder.New (Encoder.New.encodeAll
        (.cons (.vint 42) (.cons (.vstr "hello") (.cons (.vsome (.vuint64 7))
          (.cons (.vvec (.cons (.vbool true) (.cons (.vbool false) .nil)))
            (.cons (.vmapInt (.cons (-5) (.vint 1) (.cons 10 (.vint 2) .nil)))
              (.cons (.vmapStr (.cons "a" (.vstr "x") (.cons "b" (.vstr "y") .nil)))
                (.cons (.vagg (.cons (.vint 3) (.cons (.vbool true) .nil)))
                  (.cons (.vdouble 2) (.cons (.vuint8 255) .nil)))))))))).buffer)
        (.cons .tint (.cons .tstr (.cons (.topt .tuint64)
          (.cons (.tvec .tbool) (.cons (.tmapInt .tint) (.cons (.tmapStr .tstr)
            (.cons (.tagg (.cons .tint (.cons .tbool .nil)))
              (.cons .tdouble (.cons .tuint8 .nil)))))))))
      = some ((.cons (.vint 42) (.cons (.vstr "hello") (.cons (.vsome (.vuint64 7))
          (.cons (.vvec (.cons (.vbool true) (.cons (.vbool false) .nil)))
            (.cons (.vmapInt (.cons (-5) (.vint 1) (.cons 10 (.vint 2) .nil)))
              (.cons (.vmapStr (.cons "a" (.vstr "x") (.cons "b" (.vstr "y") .nil)))
                (.cons (.vagg (.cons (.vint 3) (.cons (.vbool true) .nil)))
                  (.cons (.vdouble 2) (.cons (.vuint8 255) .nil))))))))),
          ⟨(Encoder.New.encodeAll
            (.cons (.vint 42) (.cons (.vstr "hello") (.cons (.vsome (.vuint64 7))
              (.cons (.vvec (.cons (.vbool true) (.cons (.vbool false) .nil)))
                (.cons (.vmapInt (.cons (-5) (.vint 1) (.cons 10 (.vint 2) .nil)))
                  (.cons (.vmapStr (.cons "a" (.vstr "x") (.cons "b" (.vstr "y") .nil)))
                    (.cons (.vagg (.cons (.vint 3) (.cons (.vbool true) .nil)))
                      (.cons (.vdouble 2) (.cons (.vuint8 255) .nil)))))))))).buffer,
            TyList.length (.cons .tint (.cons .tstr (.cons (.topt .tuint64)
              (.cons (.tvec .tbool) (.cons (.tmapInt .tint) (.cons (.tmapStr .tstr)
                (.cons (.tagg (.cons .tint (.cons .tbool .nil)))
                  (.cons .tdouble (.cons .tuint8 .nil)))))))))⟩) ∧
    deserializeMapU .tint (serializeMapU
        (.cons 1 (.vint 5) (.cons (2 ^ 31 - 1) (.vint 6) .nil)))
      = some (.cons 1 (.vint 5) (.cons (2 ^ 31 - 1) (.vint 6) .nil)) ∧
    deserializeMapU .tint (serializeMapU (.cons (2 ^ 31) (.vint 7) .nil))
      = none :=
  ⟨codec_roundtrip_amended.1 _ _ (by decide) (by decide),
    codec_roundtrip_amended.2.1 .tint
      (.cons 1 (.vint 5) (.cons (2 ^ 31 - 1) (.vint 6) .nil))
      (by decide) (by decide) (by decide),
    codec_roundtrip_amended.2.2 .tint (.cons (2 ^ 31) (.vint 7) .nil)
      (by decide) (by decide) (by decide)⟩

/-- C6 (counterexample): codec integers are not written as fixed-width
little-endian fields, and strings carry no length prefix: the encoder
writes compact JSON text.  Encoding the `uint64` values `1` and `10`
yields the three-byte document `[1]` and the four-byte document
`[10]`, refuting fixed width; the string `"ab"` is written quoted, not
length-prefixed. -/
theorem wire_format_counterexample :
    (Encoder.New.encodeVal (.vuint64 1)).Bytes = some "[1]" ∧
    (Encoder.New.encodeVal (.vuint64 10)).Bytes = some "[10]" ∧
    (Encoder.New.encodeVal (.vstr "ab")).Bytes = some "[\"ab\"]" ∧
    ¬ (∀ u₁ u₂ : Nat, u₁ < 2 ^ 64 → u₂ < 2 ^ 64 → ∀ s₁ s₂ : String,
        (Encoder.New.encodeVal (.vuint64 u₁)).Bytes = some s₁ →
        (Encoder.New.encodeVal (.vuint64 u₂)).Bytes = some s₂ →
        s₁.length = s₂.length) := by
  refine ⟨by decide, by decide, by decide, fun h => ?_⟩
  have h110 := h 1 10 (by norm_num) (by norm_num) "[1]" "[10]" (by decide) (by decide)
  exact absurd h110 (by decide)

/-- C6 (amended): the payload is compact JSON text — a codec integer
is written as its decimal digit text (variable width, recovered by a
decimal parse), and a string is written JSON-quoted with no length
prefix. -/
theorem wire_format_amended :
    (∀ u : Nat, (Encoder.New.encodeVal (.vuint64 u)).Bytes
        = some ("[" ++ natToString u ++ "]")
      ∧ parseNatList (natToString u).toList = some u) ∧
    (∀ s : String, (∀ c ∈ s.toList, plainChar c = true) →
      (Encoder.New.encodeVal (.vstr s)).Bytes
        = some ("[" ++ ("\"" ++ s ++ "\"") ++ "]")) := by
  constructor
  · intro u
    exact ⟨rfl, parseNatList_natToString u⟩
  · intro s h
    show (some (quotedString s)).map (fun body => "[" ++ body ++ "]")
      = some ("[" ++ ("\"" ++ s ++ "\"") ++ "]")
    rw [quotedString_plain s h]
    rfl

/-- C6 (witness): the amended statement at `u = 7` and `s = "ok"`. -/
theorem wire_format_witness :
    (Encoder.New.encodeVal (.vuint64 7)).Bytes = some ("[" ++ natToString 7 ++ "]") ∧
    (Encoder.New.encodeVal (.vstr "ok")).Bytes
      = some ("[" ++ ("\"" ++ "ok" ++ "\"") ++ "]") :=
  ⟨(wire_format_amended.1 7).1, wire_format_amended.2 "ok" (by decide)⟩

/-- C7 (counterexample): decoding an aggregate with two `int` fields
from an encoded array carrying a single element does not report
failure — it succeeds, and the missing second field is
value-initialized to `0`. -/
theorem partial_decode_counterexample :
    deserialize (.tagg (.cons .tint (.cons .tint .nil)))
        (.jarr (.cons (.jint 7) .nil))
      = some (.vagg (.cons (.vint 7) (.cons (.vint 0) .nil))) ∧
    deserialize (.tagg (.cons .tint (.cons .tint .nil)))
        (.jarr (.cons (.jint 7) .nil)) ≠ none ∧
    Decoder.decodeVal (Decoder.New (.cons (.jarr (.cons (.jint 7) .nil)) .nil))
        (.tagg (.cons .tint (.cons .tint .nil)))
      = some (.vagg (.cons (.vint 7) (.cons (.vint 0) .nil)),
          ⟨.cons (.jarr (.cons (.jint 7) .nil)) .nil, 1⟩) :=
  ⟨by decide, by decide, by decide⟩

/-- C7 (amended): truncated input at the JSON-text level fails to
parse, leaving the decoder with an empty buffer on which every
`Decode` returns false; but an aggregate decoded from an array with
fewer elements than the aggregate has fields succeeds, deserializing
the present elements and leaving the missing trailing fields
value-initialized. -/
theorem partial_decode_amended (ts₁ ts₂ : TyList) (fs : CVals)
    (hno : noOptOptList ts₁ = true) (hty : hasTyFields fs ts₁ = true) :
    deserialize (.tagg (ts₁.append ts₂)) (.jarr (serializeList fs))
      = some (.vagg (fs.append (defaultVals ts₂))) ∧
    (∀ t, Decoder.decodeVal (Decoder.New .nil) t = none) := by
  constructor
  · have hshort := deserializeFields_short ts₁ fs ts₂ .nil
      (pointwiseRT_of_typed ts₁ fs hno hty)
    rw [show JArr.nil.length = 0 from rfl,
      show JArr.nil.append (serializeList fs) = serializeList fs from rfl] at hshort
    show Option.map CVal.vagg
        (deserializeFields (ts₁.append ts₂) 0 (.jarr (serializeList fs)))
      = some (.vagg (fs.append (defaultVals ts₂)))
    rw [hshort]
    rfl
  · intro t
    rfl

/-- C7 (witness): the amended statement at an aggregate with fields
`(int, int)` decoded from the single-element array `[7]`. -/
theorem partial_decode_witness :
    deserialize (.tagg (TyList.append (.cons .tint .nil) (.cons .tint .nil)))
        (.jarr (serializeList (.cons (.vint 7) .nil)))
      = some (.vagg (CVals.append (.cons (.vint 7) .nil)
          (defaultVals (.cons .tint .nil)))) ∧
    (∀ t, Decoder.decodeVal (Decoder.New .nil) t = none) :=
  partial_decode_amended (.cons .tint .nil) (.cons .tint .nil)
    (.cons (.vint 7) .nil) (by decide) (by decide)

/-! ### Claim theorems for framing and buffering (C2, C10) -/

theorem Buffer.wf_foldl_append (cs : List (List Nat)) (b : Buffer) (h : b.wf) :
    (cs.foldl Buffer.append b).wf := by
  induction cs generalizing b with
  | nil => exact h
  | cons c cs ih => exact ih _ (Buffer.wf_append b c h)

theorem Buffer.peekBytes_foldl_append (cs : List (List Nat)) (b : Buffer)
    (h : b.wf) : (cs.foldl Buffer.append b).peekBytes = b.peekBytes ++ cs.flatten := by
  induction cs generalizing b with
  | nil => simp
  | cons c cs ih =>
    rw [List.foldl_cons, ih (b.append c) (Buffer.wf_append b c h),
      Buffer.peekBytes_append b c h, List.flatten_cons, List.append_assoc]

/-- C2 (counterexample): the decoder's readiness check wraps.  The
header `FF FF FF FF` declares length `2^32 - 1`, so fewer than
`4 + length` bytes are readable in the five-byte buffer — the claim
says `decode` must return false and consume nothing — yet the 32-bit
sum `4 + length` wraps to `3`, the code proceeds, and `decode` returns
true with the truncated one-byte payload `[9]`, consuming the whole
buffer. -/
theorem protocol_wrap_counterexample :
    Protocol.fromBE4 ((Buffer.mk [255, 255, 255, 255, 9] 0).peekBytes)
        = 2 ^ 32 - 1 ∧
    (Buffer.mk [255, 255, 255, 255, 9] 0).readable
        < 4 + Protocol.fromBE4 ((Buffer.mk [255, 255, 255, 255, 9] 0).peekBytes) ∧
    Protocol.decode (Buffer.mk [255, 255, 255, 255, 9] 0)
        = some ([9], Buffer.mk [] 0) := by
  refine ⟨by decide, by decide, by decide⟩

/-- C2 (amended): the frame format and the incremental decoder, for
frames whose length field is below `2^32 - 4` (where the 32-bit sum
`4 + length` does not wrap).  `encode p` is the 4-byte big-endian
length of `p` followed by `p`; while fewer than `4 + length` bytes are
readable, `decode` refuses (the C++ code mutates the buffer only on
the success path, so state is left intact); once a full frame heads
the unread region, `decode` returns exactly the payload and consumes
exactly `4 + length` bytes; hence feeding `encode p` in arbitrary
chunks into an empty buffer yields exactly `p` with nothing left
over. -/
theorem protocol_framing_amended (p rest : List Nat) (b : Buffer) (hwf : b.wf)
    (hlen : p.length < 2 ^ 32) :
    Protocol.encode p = Protocol.be32 p.length ++ p ∧
    (Protocol.be32 p.length).length = 4 ∧
    Protocol.fromBE4 (Protocol.be32 p.length ++ rest) = p.length ∧
    (b.readable < 4 ∨
      (Protocol.fromBE4 b.peekBytes < 2 ^ 32 - 4 ∧
        b.readable < 4 + Protocol.fromBE4 b.peekBytes) →
      Protocol.decode b = none) ∧
    (b.peekBytes = Protocol.encode p ++ rest →
      ∃ b', Protocol.decode b = some (p, b') ∧ b'.wf ∧ b'.peekBytes = rest ∧
        b'.readable = b.readable - (4 + p.length)) ∧
    (∀ cs : List (List Nat), cs.flatten = Protocol.encode p →
      ∃ b', Protocol.decode (cs.foldl Buffer.append Buffer.empty)
          = some (p, b') ∧ b'.peekBytes = [] ∧ b'.readable = 0) := by
  refine ⟨rfl, by simp [Protocol.be32], Protocol.fromBE4_be32 p.length rest hlen,
    ?_, fun hregion => Protocol.decode_encode b p rest hwf hlen hregion, ?_⟩
  · intro h
    rcases h with h | ⟨hsm, hlt⟩
    · exact Protocol.decode_incomplete b (Or.inl h)
    · refine Protocol.decode_incomplete b (Or.inr ?_)
      rw [Nat.mod_eq_of_lt (by omega)]
      exact hlt
  · intro cs hjoin
    have hwf0 : (cs.foldl Buffer.append Buffer.empty).wf :=
      Buffer.wf_foldl_append cs Buffer.empty Buffer.wf_empty
    have hpeek : (cs.foldl Buffer.append Buffer.empty).peekBytes
        = Protocol.encode p ++ [] := by
      rw [Buffer.peekBytes_foldl_append cs Buffer.empty Buffer.wf_empty, hjoin]
      simp [Buffer.peekBytes, Buffer.empty]
    obtain ⟨b', hdec, hbwf, hbpeek, _⟩ :=
      Protocol.decode_encode _ p [] hwf0 hlen hpeek
    refine ⟨b', hdec, hbpeek, ?_⟩
    rw [Buffer.readable_eq_length_peekBytes, hbpeek]
    rfl

/-- C2 (witness): the amended framing statement at payload `[9, 8]`,
remainder `[5]`, and the buffer holding exactly one encoded frame plus
the remainder. -/
theorem protocol_framing_witness :
    Protocol.encode [9, 8] = Protocol.be32 (List.length [9, 8]) ++ [9, 8] ∧
    (Protocol.be32 (List.length [9, 8])).length = 4 ∧
    Protocol.fromBE4 (Protocol.be32 (List.length [9, 8]) ++ [5])
      = List.length [9, 8] ∧
    ((Buffer.mk (Protocol.encode [9, 8] ++ [5]) 0).readable < 4 ∨
      (Protocol.fromBE4 (Buffer.mk (Protocol.encode [9, 8] ++ [5]) 0).peekBytes
          < 2 ^ 32 - 4 ∧
        (Buffer.mk (Protocol.encode [9, 8] ++ [5]) 0).readable
          < 4 + Protocol.fromBE4
              (Buffer.mk (Protocol.encode [9, 8] ++ [5]) 0).peekBytes) →
      Protocol.decode (Buffer.mk (Protocol.encode [9, 8] ++ [5]) 0) = none) ∧
    ((Buffer.mk (Protocol.encode [9, 8] ++ [5]) 0).peekBytes
        = Protocol.encode [9, 8] ++ [5] →
      ∃ b', Protocol.decode (Buffer.mk (Protocol.encode [9, 8] ++ [5]) 0)
          = some ([9, 8], b') ∧ b'.wf ∧ b'.peekBytes = [5] ∧
        b'.readable
          = (Buffer.mk (Protocol.encode [9, 8] ++ [5]) 0).readable
            - (4 + List.length [9, 8])) ∧
    (∀ cs : List (List Nat), cs.flatten = Protocol.encode [9, 8] →
      ∃ b', Protocol.decode (cs.foldl Buffer.append Buffer.empty)
          = some ([9, 8], b') ∧ b'.peekBytes = [] ∧ b'.readable = 0) :=
  protocol_framing_amended [9, 8] [5] (Buffer.mk (Protocol.encode [9, 8] ++ [5]) 0)
    (by decide) (by decide)

/-- C10: `consume` and `retrieve` clamp the requested length to
`readable()`.  `retrieve n` returns exactly `min n readable()` bytes
taken from the front of the unread region; `readable()` drops by
exactly that amount; well-formedness (the read index staying inside
the storage, i.e. no out-of-range access) is preserved; and the
compaction `consume` performs when the read index passes half the
storage is invisible: the unread bytes, `readable()` and the peeked
contents are exactly as without it. -/
theorem buffer_clamp (b : Buffer) (n : Nat) (h : b.wf) :
    (b.retrieve n).1 = b.peekBytes.take (min n b.readable) ∧
    (b.retrieve n).1.length = min n b.readable ∧
    (b.retrieve n).2.peekBytes = b.peekBytes.drop (min n b.readable) ∧
    (b.retrieve n).2.readable = b.readable - min n b.readable ∧
    (b.retrieve n).2.wf ∧
    (b.consume n).peekBytes = b.peekBytes.drop (min n b.readable) ∧
    (b.consume n).readable = b.readable - min n b.readable ∧
    (b.consume n).wf := by
  obtain ⟨h1, h2, h3, h4⟩ := Buffer.retrieve_spec b n h
  refine ⟨h1, ?_, h2, h3, h4, Buffer.peekBytes_consume b n,
    Buffer.readable_consume b n, Buffer.wf_consume b n h⟩
  rw [h1, List.length_take, ← Buffer.readable_eq_length_peekBytes]
  omega

/-- C10 (witness): the clamping statement at the buffer holding
`[1, 2, 3, 4, 5]` with one byte already read, asked for `10` bytes —
the request clamps to the `4` readable ones. -/
theorem buffer_clamp_witness :
    ((Buffer.mk [1, 2, 3, 4, 5] 1).retrieve 10).1
        = (Buffer.mk [1, 2, 3, 4, 5] 1).peekBytes.take
            (min 10 (Buffer.mk [1, 2, 3, 4, 5] 1).readable) ∧
    ((Buffer.mk [1, 2, 3, 4, 5] 1).retrieve 10).1.length
        = min 10 (Buffer.mk [1, 2, 3, 4, 5] 1).readable ∧
    ((Buffer.mk [1, 2, 3, 4, 5] 1).retrieve 10).2.peekBytes
        = (Buffer.mk [1, 2, 3, 4, 5] 1).peekBytes.drop
            (min 10 (Buffer.mk [1, 2, 3, 4, 5] 1).readable) ∧
    ((Buffer.mk [1, 2, 3, 4, 5] 1).retrieve 10).2.readable
        = (Buffer.mk [1, 2, 3, 4, 5] 1).readable
          - min 10 (Buffer.mk [1, 2, 3, 4, 5] 1).readable ∧
    ((Buffer.mk [1, 2, 3, 4, 5] 1).retrieve 10).2.wf ∧
    ((Buffer.mk [1, 2, 3, 4, 5] 1).consume 10).peekBytes
        = (Buffer.mk [1, 2, 3, 4, 5] 1).peekBytes.drop
            (min 10 (Buffer.mk [1, 2, 3, 4, 5] 1).readable) ∧
    ((Buffer.mk [1, 2, 3, 4, 5] 1).consume 10).readable
        = (Buffer.mk [1, 2, 3, 4, 5] 1).readable
          - min 10 (Buffer.mk [1, 2, 3, 4, 5] 1).readable ∧
    ((Buffer.mk [1, 2, 3, 4, 5] 1).consume 10).wf :=
  buffer_clamp (Buffer.mk [1, 2, 3, 4, 5] 1) 10 (by decide)

/-! ### RpcClient (src/unnamed/part_014)

A labelled transition system for the client's request correlation
machinery.  One record per `call()` activation: its allocated request
id (`next_request_id_.fetch_add`), the phase of the calling fiber,
whether `pending_requests_` still holds the id (`inPending`), the
contents of the per-call capacity-1 channel (`chan`, holding the ids
of responses sent into it), and how many responses were ever delivered
to it (`delivered`, history variable).  Events mirror the code:
`callStart` is the insertion into `pending_requests_` before the
frame is sent; `sendOk`/`sendFail` the result of `conn_->send`;
`respond rid` is `handleResponse` on a decoded response carrying
request id `rid`; `recvOk`/`timeout` the two outcomes of
`response_chan->recv_timeout`; `disconnectEv` is `disconnect()`,
which flips `connected_`, closes the connection and calls
`pending_requests_.clear()` — and nothing else. -/

inductive CallPhase
  | inserted
  | awaiting
  | doneOk
  | doneTimeout
  | doneSendFail
deriving DecidableEq

structure CallRec where
  id : Nat
  phase : CallPhase
  inPending : Bool
  chan : List Nat
  delivered : Nat
deriving DecidableEq

structure ClientSt where
  nextId : Nat
  calls : List CallRec
  connected : Bool
deriving DecidableEq

/-- The client right after `connect` succeeded: `next_request_id_`
starts at 1, no pending requests. -/
def clientInit : ClientSt := ⟨1, [], true⟩

/-- The key set of `pending_requests_`. -/
def pendingIds (calls : List CallRec) : List Nat :=
  (calls.filter (fun r => r.inPending)).map (fun r => r.id)

/-- Lookup of a call record by request id (first match). -/
def findCall : List CallRec → Nat → Option CallRec
  | [], _ => none
  | r :: rs, i => if r.id = i then some r else findCall rs i

/-- `pending_requests_.find(rid)`: the record, if its id is still in
the pending table. -/
def pendingLookup (s : ClientSt) (rid : Nat) : Option CallRec :=
  match findCall s.calls rid with
  | some r => if r.inPending then some r else none
  | none => none

/-- Apply `f` to the record(s) carrying the given id. -/
def updCall (f : CallRec → CallRec) (i : Nat) (calls : List CallRec) :
    List CallRec :=
  calls.map (fun r => if r.id = i then f r else r)

inductive CEvent
  | callStart
  | sendOk (i : Nat)
  | sendFail (i : Nat)
  | respond (rid : Nat)
  | recvOk (i : Nat)
  | timeout (i : Nat)
  | disconnectEv

/-- One step of the client.  `none` means the event is not enabled in
this state; `respond` is always enabled (the receive loop just drops
a response whose id is absent from the pending table). -/
def clientStep (s : ClientSt) : CEvent → Option ClientSt
  | .callStart =>
      if s.connected then
        some ⟨s.nextId + 1, s.calls ++ [⟨s.nextId, .inserted, true, [], 0⟩],
          s.connected⟩
      else none
  | .sendOk i =>
      match findCall s.calls i with
      | some r =>
          if r.phase = .inserted then
            some { s with
              calls := updCall (fun q => { q with phase := .awaiting }) i s.calls }
          else none
      | none => none
  | .sendFail i =>
      match findCall s.calls i with
      | some r =>
          if r.phase = .inserted then
            some { s with
              calls := updCall
                (fun q => { q with phase := .doneSendFail, inPending := false })
                i s.calls }
          else none
      | none => none
  | .respond rid =>
      match pendingLookup s rid with
      | some _ =>
          some { s with
            calls := s.calls.map (fun q =>
              if q.id = rid ∧ q.inPending = true then
                { q with
                  inPending := false,
                  chan := q.chan ++ [rid],
                  delivered := q.delivered + 1 }
              else q) }
      | none => some s
  | .recvOk i =>
      match findCall s.calls i with
      | some r =>
          match r.chan with
          | [] => none
          | _ :: _ =>
              if r.phase = .awaiting then
                some { s with
                  calls := updCall
                    (fun q => { q with phase := .doneOk, chan := q.chan.drop 1 })
                    i s.calls }
              else none
      | none => none
  | .timeout i =>
      match findCall s.calls i with
      | some r =>
          if r.phase = .awaiting ∧ r.chan = [] then
            some { s with
              calls := updCall
                (fun q => { q with phase := .doneTimeout, inPending := false })
                i s.calls }
          else none
      | none => none
  | .disconnectEv =>
      if s.connected then
        some ⟨s.nextId, s.calls.map (fun q => { q with inPending := false }),
          false⟩
      else none

/-- States reachable from the freshly connected client. -/
inductive ClientReach : ClientSt → Prop
  | init : ClientReach clientInit
  | step {s s' : ClientSt} {e : CEvent} :
      ClientReach s → clientStep s e = some s' → ClientReach s'

/-- Per-record invariant: ids are below the allocator, at most one
response is ever delivered, a record still in the pending table has
received nothing yet, and the channel only ever holds the record's own
id. -/
def CallRecOk (nextId : Nat) (r : CallRec) : Prop :=
  r.id < nextId ∧ r.delivered ≤ 1 ∧ (r.inPending = true → r.delivered = 0) ∧
  r.chan.length ≤ r.delivered ∧ ∀ x ∈ r.chan, x = r.id

def ClientInv (s : ClientSt) : Prop :=
  (s.calls.map (fun r => r.id)).Nodup ∧ ∀ r ∈ s.calls, CallRecOk s.nextId r

theorem CallRecOk.mono {n m : Nat} {r : CallRec} (h : n ≤ m)
    (hr : CallRecOk n r) : CallRecOk m r :=
  ⟨lt_of_lt_of_le hr.1 h, hr.2⟩

theorem map_id_map (g : CallRec → CallRec) (calls : List CallRec)
    (hg : ∀ r, (g r).id = r.id) :
    (calls.map g).map (fun r => r.id) = calls.map (fun r => r.id) := by
  induction calls with
  | nil => rfl
  | cons r rs ih =>
    simp only [List.map_cons]
    rw [ih, hg r]

theorem pendingIds_append (a b : List CallRec) :
    pendingIds (a ++ b) = pendingIds a ++ pendingIds b := by
  simp [pendingIds]

theorem findCall_append_last (calls : List CallRec) (r : CallRec)
    (h : ∀ q ∈ calls, q.id ≠ r.id) : findCall (calls ++ [r]) r.id = some r := by
  induction calls with
  | nil => simp [findCall]
  | cons q qs ih =>
    simp only [List.cons_append, findCall]
    rw [if_neg (h q (by simp))]
    exact ih (fun p hp => h p (List.mem_cons_of_mem _ hp))

theorem findCall_mem {calls : List CallRec} {i : Nat} {r : CallRec}
    (h : findCall calls i = some r) : r ∈ calls ∧ r.id = i := by
  induction calls with
  | nil => exact absurd h (by simp [findCall])
  | cons q qs ih =>
    simp only [findCall] at h
    split at h
    · cases h
      exact ⟨List.mem_cons_self _ _, by assumption⟩
    · obtain ⟨hm, hid⟩ := ih h
      exact ⟨List.mem_cons_of_mem _ hm, hid⟩

theorem ClientInv_map {n : Nat} {calls : List CallRec} {c : Bool}
    (hnd : (calls.map (fun r => r.id)).Nodup)
    (hok : ∀ r ∈ calls, CallRecOk n r)
    (g : CallRec → CallRec) (hg : ∀ r, (g r).id = r.id)
    (hpres : ∀ r ∈ calls, CallRecOk n r → CallRecOk n (g r)) :
    ClientInv ⟨n, calls.map g, c⟩ := by
  constructor
  · show ((calls.map g).map (fun r => r.id)).Nodup
    rw [map_id_map g calls hg]
    exact hnd
  · intro r hr
    obtain ⟨q, hq, rfl⟩ := List.mem_map.1 hr
    exact hpres q hq (hok q hq)

/-- Every client step preserves the correlation invariant. -/
theorem ClientInv_step {s s' : ClientSt} {e : CEvent} (hinv : ClientInv s)
    (hstep : clientStep s e = some s') : ClientInv s' := by
  obtain ⟨hnd, hok⟩ := hinv
  cases e with
  | callStart =>
    simp only [clientStep] at hstep
    split at hstep
    · cases hstep
      constructor
      · rw [List.map_append]
        refine List.Nodup.append hnd (by simp) ?_
        intro a ha hb
        obtain ⟨q, hq, rfl⟩ := List.mem_map.1 ha
        have := (hok q hq).1
        simp at hb
        omega
      · intro r hr
        rcases List.mem_append.1 hr with h | h
        · exact CallRecOk.mono (Nat.le_succ _) (hok r h)
        · have : r = ⟨s.nextId, .inserted, true, [], 0⟩ := by simpa using h
          subst this
          exact ⟨Nat.lt_succ_self _, Nat.zero_le _, fun _ => rfl, Nat.le_refl _,
            by simp⟩
    · exact absurd hstep (by simp)
  | sendOk i =>
    simp only [clientStep] at hstep
    split at hstep
    · split at hstep
      · cases hstep
        refine ClientInv_map hnd hok _ (fun r => ?_) (fun r _ hr => ?_)
        · by_cases h : r.id = i <;> simp [h]
        · by_cases h : r.id = i
          · rw [if_pos h]
            exact hr
          · rw [if_neg h]
            exact hr
      · exact absurd hstep (by simp)
    · exact absurd hstep (by simp)
  | sendFail i =>
    simp only [clientStep] at hstep
    split at hstep
    · split at hstep
      · cases hstep
        refine ClientInv_map hnd hok _ (fun r => ?_) (fun r _ hr => ?_)
        · by_cases h : r.id = i <;> simp [h]
        · by_cases h : r.id = i
          · rw [if_pos h]
            exact ⟨hr.1, hr.2.1, fun hc => absurd hc (by simp), hr.2.2.2⟩
          · rw [if_neg h]
            exact hr
      · exact absurd hstep (by simp)
    · exact absurd hstep (by simp)
  | respond rid =>
    simp only [clientStep] at hstep
    split at hstep
    · cases hstep
      refine ClientInv_map hnd hok _ (fun r => ?_) (fun r _ hr => ?_)
      · by_cases h : r.id = rid ∧ r.inPending = true <;> simp [h]
      · by_cases h : r.id = rid ∧ r.inPending = true
        · rw [if_pos h]
          have hdel : r.delivered = 0 := hr.2.2.1 h.2
          have hchan : r.chan = [] := by
            have := hr.2.2.2.1
            rw [hdel] at this
            exact List.eq_nil_of_length_eq_zero (Nat.le_zero.1 this)
          refine ⟨hr.1, ?_, fun hc => absurd hc (by simp), ?_, ?_⟩
          · simp [hdel]
          · simp [hchan, hdel]
          · intro x hx
            rw [hchan] at hx
            simp at hx
            rw [hx, h.1]
        · rw [if_neg h]
          exact hr
    · cases hstep
      exact ⟨hnd, hok⟩
  | recvOk i =>
    simp only [clientStep] at hstep
    split at hstep
    · split at hstep
      · exact absurd hstep (by simp)
      · split at hstep
        · cases hstep
          refine ClientInv_map hnd hok _ (fun r => ?_) (fun r _ hr => ?_)
          · by_cases h : r.id = i <;> simp [h]
          · by_cases h : r.id = i
            · rw [if_pos h]
              refine ⟨hr.1, hr.2.1, hr.2.2.1, ?_, ?_⟩
              · have hlen := hr.2.2.2.1
                show (r.chan.drop 1).length ≤ r.delivered
                rw [List.length_drop]
                omega
              · intro x hx
                exact hr.2.2.2.2 x (List.mem_of_mem_drop hx)
            · rw [if_neg h]
              exact hr
        · exact absurd hstep (by simp)
    · exact absurd hstep (by simp)
  | timeout i =>
    simp only [clientStep] at hstep
    split at hstep
    · split at hstep
      · cases hstep
        refine ClientInv_map hnd hok _ (fun r => ?_) (fun r _ hr => ?_)
        · by_cases h : r.id = i <;> simp [h]
        · by_cases h : r.id = i
          · rw [if_pos h]
            exact ⟨hr.1, hr.2.1, fun hc => absurd hc (by simp), hr.2.2.2⟩
          · rw [if_neg h]
            exact hr
      · exact absurd hstep (by simp)
    · exact absurd hstep (by simp)
  | disconnectEv =>
    simp only [clientStep] at hstep
    split at hstep
    · cases hstep
      refine ClientInv_map hnd hok _ (fun r => by simp) (fun r _ hr => ?_)
      exact ⟨hr.1, hr.2.1, fun hc => absurd hc (by simp), hr.2.2.2⟩
    · exact absurd hstep (by simp)

theorem ClientInv_init : ClientInv clientInit :=
  ⟨List.nodup_nil, fun r hr => absurd hr (List.not_mem_nil r)⟩

/-- The correlation invariant holds in every reachable client state. -/
theorem ClientInv_reach {s : ClientSt} (h : ClientReach s) : ClientInv s := by
  induction h with
  | init => exact ClientInv_init
  | step _ hstep ih => exact ClientInv_step ih hstep

theorem pendingIds_clear (calls : List CallRec) :
    pendingIds (calls.map (fun q => { q with inPending := false })) = [] := by
  induction calls with
  | nil => rfl
  | cons r rs ih =>
    simp only [List.map_cons, pendingIds, List.filter] at ih ⊢
    exact ih

theorem pendingLookup_none_of_all {s : ClientSt}
    (h : ∀ r ∈ s.calls, r.inPending = false) (rid : Nat) :
    pendingLookup s rid = none := by
  unfold pendingLookup
  cases hf : findCall s.calls rid with
  | none => rfl
  | some r =>
    show (if r.inPending = true then some r else none) = none
    rw [if_neg]
    rw [h r (findCall_mem hf).1]
    exact Bool.false_ne_true

/-- C3: correlation through the pending table, in every reachable
client state.  The pending key set has no duplicates; every call ever
receives at most one response, and only responses carrying its own
request id; a response whose id is not in the pending table is dropped
without changing any state; and `call()` inserts the pending entry
(with the fiber still in the pre-send phase) before any send can
happen — right after the insertion the new id is in the table and the
send event for it is enabled. -/
theorem pending_correlation (s : ClientSt) (h : ClientReach s) :
    (pendingIds s.calls).Nodup ∧
    (∀ r ∈ s.calls, r.delivered ≤ 1 ∧ ∀ x ∈ r.chan, x = r.id) ∧
    (∀ rid, pendingLookup s rid = none → clientStep s (.respond rid) = some s) ∧
    (∀ s', clientStep s .callStart = some s' →
      pendingIds s'.calls = pendingIds s.calls ++ [s.nextId] ∧
      pendingLookup s' s.nextId = some ⟨s.nextId, .inserted, true, [], 0⟩ ∧
      (clientStep s' (.sendOk s.nextId)).isSome = true) := by
  obtain ⟨hnd, hok⟩ := ClientInv_reach h
  refine ⟨?_, ?_, ?_, ?_⟩
  · exact ((List.filter_sublist _).map _).nodup hnd
  · intro r hr
    exact ⟨(hok r hr).2.1, (hok r hr).2.2.2.2⟩
  · intro rid hrid
    simp [clientStep, hrid]
  · intro s' hs'
    simp only [clientStep] at hs'
    split at hs'
    · cases hs'
      have hfind : findCall (s.calls ++ [⟨s.nextId, .inserted, true, [], 0⟩])
          s.nextId = some ⟨s.nextId, .inserted, true, [], 0⟩ := by
        refine findCall_append_last s.calls _ (fun q hq => ?_)
        exact Nat.ne_of_lt (hok q hq).1
      refine ⟨?_, ?_, ?_⟩
      · rw [pendingIds_append]
        rfl
      · simp [pendingLookup, hfind]
      · simp [clientStep, hfind]
    · exact absurd hs' (by simp)

/-- C3 (witness): the correlation statement in the state reached from
the fresh client by one `call()` insertion followed by a successful
send. -/
theorem pending_correlation_witness :
    (pendingIds (ClientSt.mk 2 [⟨1, .awaiting, true, [], 0⟩] true).calls).Nodup ∧
    (∀ r ∈ (ClientSt.mk 2 [⟨1, .awaiting, true, [], 0⟩] true).calls,
      r.delivered ≤ 1 ∧ ∀ x ∈ r.chan, x = r.id) ∧
    (∀ rid, pendingLookup (ClientSt.mk 2 [⟨1, .awaiting, true, [], 0⟩] true) rid
        = none →
      clientStep (ClientSt.mk 2 [⟨1, .awaiting, true, [], 0⟩] true) (.respond rid)
        = some (ClientSt.mk 2 [⟨1, .awaiting, true, [], 0⟩] true)) ∧
    (∀ s', clientStep (ClientSt.mk 2 [⟨1, .awaiting, true, [], 0⟩] true) .callStart
        = some s' →
      pendingIds s'.calls
          = pendingIds (ClientSt.mk 2 [⟨1, .awaiting, true, [], 0⟩] true).calls
            ++ [(ClientSt.mk 2 [⟨1, .awaiting, true, [], 0⟩] true).nextId] ∧
      pendingLookup s' (ClientSt.mk 2 [⟨1, .awaiting, true, [], 0⟩] true).nextId
          = some ⟨(ClientSt.mk 2 [⟨1, .awaiting, true, [], 0⟩] true).nextId,
              .inserted, true, [], 0⟩ ∧
      (clientStep s'
        (.sendOk (ClientSt.mk 2
          [⟨1, .awaiting, true, [], 0⟩] true).nextId)).isSome = true) :=
  pending_correlation (ClientSt.mk 2 [⟨1, .awaiting, true, [], 0⟩] true)
    (@ClientReach.step (ClientSt.mk 2 [⟨1, .inserted, true, [], 0⟩] true)
      (ClientSt.mk 2 [⟨1, .awaiting, true, [], 0⟩] true) (CEvent.sendOk 1)
      (@ClientReach.step clientInit
        (ClientSt.mk 2 [⟨1, .inserted, true, [], 0⟩] true) CEvent.callStart
        ClientReach.init (by decide))
      (by decide))

/-- C5 (counterexample): `disconnect()` does not wake a fiber blocked
in `call()`.  From the fresh client: one call is inserted and sent,
then `disconnect()` runs.  The pending entry is cleared, but the
call's channel stays empty and its fiber stays blocked — receiving is
not enabled, and the only event that can end the wait is its own
timeout (after which `call()` returns "Request timeout", not a
DISCONNECTED error). -/
theorem disconnect_no_wake_counterexample :
    clientStep clientInit .callStart
        = some ⟨2, [⟨1, .inserted, true, [], 0⟩], true⟩ ∧
    clientStep ⟨2, [⟨1, .inserted, true, [], 0⟩], true⟩ (.sendOk 1)
        = some ⟨2, [⟨1, .awaiting, true, [], 0⟩], true⟩ ∧
    clientStep ⟨2, [⟨1, .awaiting, true, [], 0⟩], true⟩ .disconnectEv
        = some ⟨2, [⟨1, .awaiting, false, [], 0⟩], false⟩ ∧
    clientStep ⟨2, [⟨1, .awaiting, false, [], 0⟩], false⟩ (.recvOk 1) = none ∧
    clientStep ⟨2, [⟨1, .awaiting, false, [], 0⟩], false⟩ (.timeout 1)
        = some ⟨2, [⟨1, .doneTimeout, false, [], 0⟩], false⟩ := by
  decide

/-- C5 (amended): `disconnect()` marks the client closed, closes the
connection, and clears the pending table — but it delivers nothing to
the per-call channels: every call's phase, channel contents and
delivery count are exactly as before, and any response arriving
afterwards is dropped.  A fiber blocked in `call()` therefore waits
out its full timeout. -/
theorem disconnect_amended (s : ClientSt) (hc : s.connected = true) :
    ∃ s', clientStep s .disconnectEv = some s' ∧
      s'.connected = false ∧
      pendingIds s'.calls = [] ∧
      s'.calls.map (fun r => (r.phase, r.chan, r.delivered))
        = s.calls.map (fun r => (r.phase, r.chan, r.delivered)) ∧
      ∀ rid, clientStep s' (.respond rid) = some s' := by
  refine ⟨⟨s.nextId, s.calls.map (fun q => { q with inPending := false }), false⟩,
    ?_, rfl, pendingIds_clear s.calls, ?_, ?_⟩
  · simp [clientStep, hc]
  · rw [List.map_map]
    rfl
  · intro rid
    have hall : ∀ r ∈ (ClientSt.mk s.nextId
        (s.calls.map (fun q => { q with inPending := false })) false).calls,
        r.inPending = false := by
      intro r hr
      obtain ⟨q, _, rfl⟩ := List.mem_map.1 hr
      rfl
    simp [clientStep, pendingLookup_none_of_all hall rid]

/-- C5 (witness for the amended statement): the disconnect effect on
the client with one call awaiting its response. -/
theorem disconnect_amended_witness :
    ∃ s', clientStep ⟨2, [⟨1, .awaiting, true, [], 0⟩], true⟩ .disconnectEv
        = some s' ∧
      s'.connected = false ∧
      pendingIds s'.calls = [] ∧
      s'.calls.map (fun r => (r.phase, r.chan, r.delivered))
        = (ClientSt.mk 2 [⟨1, .awaiting, true, [], 0⟩] true).calls.map
            (fun r => (r.phase, r.chan, r.delivered)) ∧
      ∀ rid, clientStep s' (.respond rid) = some s' :=
  disconnect_amended ⟨2, [⟨1, .awaiting, true, [], 0⟩], true⟩ rfl

/-! ### RpcServer (rpc_server.h, part_013, part_016)

`handleRequest` decodes an `RpcRequest` from the framed payload, looks
the method up in `handlers_`, builds exactly one `RpcResponse`
carrying the request's id, and sends it; a throwing handler is caught
(`catch (const std::exception&)`) and turned into
`success=false, error="Exception: " + e.what()`.  The typed
`registerHandler` adaptor throws `runtime_error` when the input
arguments fail to decode or when the business function returns an
error string.  A handler outcome is either the returned result string
or the message of a thrown exception. -/

inductive HOutcome
  | ok (result : String)
  | thrown (msg : String)
deriving DecidableEq

structure SReq where
  request_id : Nat
  method : String
  params_data : String
deriving DecidableEq

structure SResp where
  request_id : Nat
  success : Bool
  result_data : String
  error : String
deriving DecidableEq

/-- `handlers_.find(method)` over the registered handler table. -/
def findHandler : List (String × (String → HOutcome)) → String → Option (String → HOutcome)
  | [], _ => none
  | (m, h) :: hs, name => if m = name then some h else findHandler hs name

/-- `RpcServer::handleRequest` on an already-decoded request: the
response construction (the one `conn->send(response.serialize())` per
request).  A fresh `RpcResponse` has `success=false`, empty
`result_data` and `error`. -/
def handleRequest (handlers : List (String × (String → HOutcome)))
    (req : SReq) : SResp :=
  match findHandler handlers req.method with
  | none => ⟨req.request_id, false, "", "Method not found: " ++ req.method⟩
  | some h =>
      match h req.params_data with
      | .ok result => ⟨req.request_id, true, result, ""⟩
      | .thrown msg => ⟨req.request_id, false, "", "Exception: " ++ msg⟩

/-- The `registerHandler` adaptor: decode the input arguments (throw
`"Failed to decode input arguments"` on failure), run the business
function (throw its error string if it returns one), otherwise encode
the output. -/
def adaptor {α β : Type} (dec : String → Option α)
    (func : α → Except String β) (enc : β → String)
    (params : String) : HOutcome :=
  match dec params with
  | none => .thrown "Failed to decode input arguments"
  | some input =>
      match func input with
      | .error e => .thrown e
      | .ok output => .ok (enc output)

/-- `RpcRequest::deserialize`: an `RpcRequest` is the aggregate
`(uint64_t request_id, string method, string params_data)`, decoded
from the connection payload's JSON document by `Decoder::Decode`. -/
def reqOfDoc (j : JValue) : Option SReq :=
  match deserialize (.tagg (.cons .tuint64 (.cons .tstr (.cons .tstr .nil)))) j with
  | some (.vagg (.cons (.vuint64 i) (.cons (.vstr m) (.cons (.vstr p) .nil)))) =>
      some ⟨i, m, p⟩
  | _ => none

/-- One connection's receive loop: `RpcConnection::receiveLoop` hands
each framed payload to the callback synchronously, which decodes it
(`return` on failure — no response) and otherwise answers it through
`handleRequest` before the next payload is processed. -/
def handleConnectionDocs (handlers : List (String × (String → HOutcome))) :
    List JValue → List SResp
  | [] => []
  | j :: rest =>
      match reqOfDoc j with
      | none => handleConnectionDocs handlers rest
      | some req => handleRequest handlers req :: handleConnectionDocs handlers rest

/-! Fiber structure of the server, as transcribed from the `Fiber::go`
call sites: `acceptLoop` spawns one fiber per accepted connection
(`spawnConnFiber`); inside that fiber `receiveLoop` invokes the
request callback synchronously, so each decoded request is a
`runHandlerInline` on the connection's own fiber.  `spawnHandlerFiber`
is the event a per-request `Fiber::go` would produce; no code path
emits it. -/

inductive ServerEvent
  | spawnConnFiber (connId : Nat)
  | runHandlerInline (connId : Nat) (reqId : Nat)
  | spawnHandlerFiber (connId : Nat) (reqId : Nat)
deriving DecidableEq

/-- The fiber events produced while one connection fiber serves its
payload stream. -/
def connEvents (connId : Nat) (docs : List JValue) : List ServerEvent :=
  docs.filterMap (fun j => (reqOfDoc j).map
    (fun r => ServerEvent.runHandlerInline connId r.request_id))

/-- The fiber events of `acceptLoop` serving a list of connections,
each with its payload stream. -/
def serverEvents : List (Nat × List JValue) → List ServerEvent
  | [] => []
  | (cid, docs) :: rest =>
      ServerEvent.spawnConnFiber cid :: (connEvents cid docs ++ serverEvents rest)

theorem handleConnectionDocs_eq (handlers : List (String × (String → HOutcome)))
    (docs : List JValue) :
    handleConnectionDocs handlers docs
      = (docs.filterMap reqOfDoc).map (handleRequest handlers) := by
  induction docs with
  | nil => rfl
  | cons j rest ih =>
    show (match reqOfDoc j with
      | none => handleConnectionDocs handlers rest
      | some req => handleRequest handlers req :: handleConnectionDocs handlers rest)
      = _
    cases hj : reqOfDoc j with
    | none => rw [List.filterMap_cons, hj, ih]
    | some req => rw [List.filterMap_cons, hj, List.map_cons, ih]

theorem connEvents_shape {cid : Nat} {docs : List JValue} {ev : ServerEvent}
    (h : ev ∈ connEvents cid docs) : ∃ rid, ev = .runHandlerInline cid rid := by
  obtain ⟨j, _, hf⟩ := List.mem_filterMap.1 h
  cases hr : reqOfDoc j with
  | none =>
    rw [hr] at hf
    cases hf
  | some r =>
    rw [hr] at hf
    cases hf
    exact ⟨r.request_id, rfl⟩

theorem serverEvents_no_handler_fiber (conns : List (Nat × List JValue))
    (ev : ServerEvent) (h : ev ∈ serverEvents conns) (cid rid : Nat) :
    ev ≠ .spawnHandlerFiber cid rid := by
  induction conns with
  | nil => exact absurd h (by simp [serverEvents])
  | cons c rest ih =>
    obtain ⟨ccid, docs⟩ := c
    rcases List.mem_cons.1 h with hc | hc
    · rw [hc]
      intro he
      cases he
    · rcases List.mem_append.1 hc with hc | hc
      · obtain ⟨r, hr⟩ := connEvents_shape hc
        rw [hr]
        intro he
        cases he
      · exact ih hc

/-- C4: for every decoded request the server builds exactly one
response, carrying the request's id — serving a payload stream yields
one response per decoded request, in order.  A throwing handler is
caught and answered with `success=false` and the non-empty error
`"Exception: " ++ what`; an unregistered method is answered with
`"Method not found: " ++ method`; the typed-handler adaptor turns a
returned error string into a thrown exception; and the connection
keeps serving the remaining requests after any of these. -/
theorem server_request_response
    (handlers : List (String × (String → HOutcome))) (req : SReq)
    (docs : List JValue) :
    handleConnectionDocs handlers docs
        = (docs.filterMap reqOfDoc).map (handleRequest handlers) ∧
    (handleRequest handlers req).request_id = req.request_id ∧
    (∀ h e, findHandler handlers req.method = some h →
      h req.params_data = .thrown e →
      (handleRequest handlers req).success = false ∧
      (handleRequest handlers req).error = "Exception: " ++ e ∧
      (handleRequest handlers req).error ≠ "") ∧
    (findHandler handlers req.method = none →
      (handleRequest handlers req).success = false ∧
      (handleRequest handlers req).error = "Method not found: " ++ req.method) ∧
    (∀ (α β : Type) (dec : String → Option α) (func : α → Except String β)
      (enc : β → String) (input : String) (a : α) (e : String),
      dec input = some a → func a = Except.error e →
      adaptor dec func enc input = .thrown e) ∧
    (∀ j rest, handleConnectionDocs handlers (j :: rest)
        = match reqOfDoc j with
          | some r => handleRequest handlers r :: handleConnectionDocs handlers rest
          | none => handleConnectionDocs handlers rest) := by
  refine ⟨handleConnectionDocs_eq handlers docs, ?_, ?_, ?_, ?_, ?_⟩
  · cases hf : findHandler handlers req.method with
    | none => simp [handleRequest, hf]
    | some h =>
      cases ho : h req.params_data with
      | ok result => simp [handleRequest, hf, ho]
      | thrown msg => simp [handleRequest, hf, ho]
  · intro h e hf hth
    refine ⟨by simp [handleRequest, hf, hth], by simp [handleRequest, hf, hth], ?_⟩
    simp only [handleRequest, hf, hth]
    intro heq
    have hlen := congrArg String.length heq
    rw [String.length_append] at hlen
    rw [show ("Exception: ").length = 11 from rfl,
      show ("" : String).length = 0 from rfl] at hlen
    omega
  · intro hf
    exact ⟨by simp [handleRequest, hf], by simp [handleRequest, hf]⟩
  · intro α β dec func enc input a e hdec herr
    simp [adaptor, hdec, herr]
  · intro j rest
    show (match reqOfDoc j with
      | none => handleConnectionDocs handlers rest
      | some req => handleRequest handlers req :: handleConnectionDocs handlers rest)
      = _
    cases hj : reqOfDoc j <;> rfl

/-- C4 (witness): a handler throwing `"kaput"` is answered on request
id 7 with `success=false` and error `"Exception: kaput"`; an
unregistered method is answered with `"Method not found: "`; the
adaptor turns a returned error string into a throw; and a stream of
one decodable and one undecodable payload yields exactly the one
response. -/
theorem server_request_response_witness :
    (handleRequest [("boom", fun _ => HOutcome.thrown "kaput")]
        ⟨7, "boom", "x"⟩).request_id = 7 ∧
    (handleRequest [("boom", fun _ => HOutcome.thrown "kaput")]
        ⟨7, "boom", "x"⟩).success = false ∧
    (handleRequest [("boom", fun _ => HOutcome.thrown "kaput")]
        ⟨7, "boom", "x"⟩).error = "Exception: " ++ "kaput" ∧
    (handleRequest [("boom", fun _ => HOutcome.thrown "kaput")]
        ⟨7, "boom", "x"⟩).error ≠ "" ∧
    (handleRequest [("boom", fun _ => HOutcome.thrown "kaput")]
        ⟨9, "nope", "x"⟩).success = false ∧
    (handleRequest [("boom", fun _ => HOutcome.thrown "kaput")]
        ⟨9, "nope", "x"⟩).error = "Method not found: " ++ "nope" ∧
    adaptor (fun s => some s) (fun _ : String => Except.error (α := String) "bad")
        (fun s : String => s) "in" = HOutcome.thrown "bad" ∧
    handleConnectionDocs [("boom", fun _ => HOutcome.thrown "kaput")]
        [serialize (.vagg (.cons (.vuint64 7) (.cons (.vstr "boom")
          (.cons (.vstr "x") .nil)))), .jarr (.cons (.jstr "x") .nil)]
      = ([serialize (.vagg (.cons (.vuint64 7) (.cons (.vstr "boom")
          (.cons (.vstr "x") .nil)))), .jarr (.cons (.jstr "x") .nil)].filterMap
            reqOfDoc).map
          (handleRequest [("boom", fun _ => HOutcome.thrown "kaput")]) := by
  have hthrow := (server_request_response
    [("boom", fun _ => HOutcome.thrown "kaput")] ⟨7, "boom", "x"⟩ []).2.2.1
    (fun _ => HOutcome.thrown "kaput") "kaput" rfl rfl
  have hmiss := (server_request_response
    [("boom", fun _ => HOutcome.thrown "kaput")] ⟨9, "nope", "x"⟩ []).2.2.2.1 rfl
  have hadapt := (server_request_response
    [("boom", fun _ => HOutcome.thrown "kaput")] ⟨7, "boom", "x"⟩
    []).2.2.2.2.1 String String (fun s => some s)
    (fun _ => Except.error "bad") (fun s => s) "in" "in" "bad" rfl rfl
  have hstream := (server_request_response
    [("boom", fun _ => HOutcome.thrown "kaput")] ⟨7, "boom", "x"⟩
    [serialize (.vagg (.cons (.vuint64 7) (.cons (.vstr "boom")
      (.cons (.vstr "x") .nil)))), .jarr (.cons (.jstr "x") .nil)]).1
  have hid := (server_request_response
    [("boom", fun _ => HOutcome.thrown "kaput")] ⟨7, "boom", "x"⟩ []).2.1
  exact ⟨hid, hthrow.1, hthrow.2.1, hthrow.2.2, hmiss.1, hmiss.2, hadapt, hstream⟩

/-- C8 (counterexample): no code path spawns a per-request handler
fiber.  A connection carrying two requests produces one connection
fiber and two inline handler runs on it, in order; and across every
possible connection workload, a `spawnHandlerFiber` event never
occurs. -/
theorem handler_fiber_counterexample :
    serverEvents [(1, [serialize (.vagg (.cons (.vuint64 5)
        (.cons (.vstr "m") (.cons (.vstr "p") .nil)))),
      serialize (.vagg (.cons (.vuint64 6)
        (.cons (.vstr "m") (.cons (.vstr "q") .nil))))])]
      = [.spawnConnFiber 1, .runHandlerInline 1 5, .runHandlerInline 1 6] ∧
    (∀ conns (ev : ServerEvent), ev ∈ serverEvents conns →
      ∀ cid rid, ev ≠ .spawnHandlerFiber cid rid) :=
  ⟨by decide, fun conns ev h cid rid => serverEvents_no_handler_fiber conns ev h cid rid⟩

/-- C8 (amended): `acceptLoop` spawns one fiber per accepted
connection; on that fiber the receive loop runs each decoded request's
handler inline (synchronously, in arrival order), so a slow handler
delays later requests on the same connection, while other connections
proceed on their own fibers.  No per-request fiber is ever spawned. -/
theorem handler_inline_amended (cid : Nat) (docs : List JValue)
    (conns : List (Nat × List JValue)) :
    serverEvents ((cid, docs) :: conns)
        = .spawnConnFiber cid :: (connEvents cid docs ++ serverEvents conns) ∧
    connEvents cid docs = docs.filterMap (fun j => (reqOfDoc j).map
        (fun r => ServerEvent.runHandlerInline cid r.request_id)) ∧
    (∀ ev ∈ connEvents cid docs, ∃ rid, ev = .runHandlerInline cid rid) ∧
    (∀ ev ∈ serverEvents ((cid, docs) :: conns), ∀ cid2 rid,
      ev ≠ .spawnHandlerFiber cid2 rid) :=
  ⟨rfl, rfl, fun _ hev => connEvents_shape hev,
    fun ev hev cid2 rid => serverEvents_no_handler_fiber _ ev hev cid2 rid⟩

/-- C8 (witness): the inline-handler statement at one connection with
one request. -/
theorem handler_inline_witness :
    serverEvents [(1, [serialize (.vagg (.cons (.vuint64 5)
        (.cons (.vstr "m") (.cons (.vstr "p") .nil))))])]
      = .spawnConnFiber 1
        :: (connEvents 1 [serialize (.vagg (.cons (.vuint64 5)
              (.cons (.vstr "m") (.cons (.vstr "p") .nil))))] ++ serverEvents []) ∧
    (∃ rid, ServerEvent.runHandlerInline 1 5 = .runHandlerInline 1 rid) ∧
    ServerEvent.runHandlerInline 1 5 ≠ .spawnHandlerFiber 1 5 := by
  refine ⟨(handler_inline_amended 1 _ []).1, ?_, ?_⟩
  · exact (handler_inline_amended 1 [serialize (.vagg (.cons (.vuint64 5)
      (.cons (.vstr "m") (.cons (.vstr "p") .nil))))] []).2.2.1
      (ServerEvent.runHandlerInline 1 5) (by decide)
  · exact (handler_inline_amended 1 [serialize (.vagg (.cons (.vuint64 5)
      (.cons (.vstr "m") (.cons (.vstr "p") .nil))))] []).2.2.2
      (ServerEvent.runHandlerInline 1 5) (by decide) 1 5

/-! ### MemoryPersister (persister.h)

Every method body runs entirely inside
`std::unique_lock<fiber::FiberMutex> lock(mu_)`, so a concurrent
history of persister calls is a serialization of atomic operations;
the model makes each operation one atomic step.  `clone` builds a
fresh vector from the stored bytes (an owned copy, no aliasing of the
internal storage); `Save` overwrites `raftstate_` and `snapshot_`
inside one critical section. -/

structure PersisterSt where
  raftstate : List Nat
  snapshot : List Nat
deriving DecidableEq

inductive POp
  | readRaftState
  | raftStateSize
  | save (raftstate snapshot : List Nat)
  | readSnapshot
  | snapshotSize
  | copy
deriving DecidableEq

inductive PResult
  | bytes (bs : List Nat)
  | size (n : Nat)
  | unit
  | copied (p : PersisterSt)
deriving DecidableEq

/-- `MemoryPersister::clone`: a fresh vector holding the same bytes. -/
def clone (orig : List Nat) : List Nat := orig.map (fun b => b)

/-- One persister operation: the state after it and what it returns. -/
def runOp (s : PersisterSt) : POp → PersisterSt × PResult
  | .readRaftState => (s, .bytes (clone s.raftstate))
  | .raftStateSize => (s, .size s.raftstate.length)
  | .save rs ss => (⟨clone rs, clone ss⟩, .unit)
  | .readSnapshot => (s, .bytes (clone s.snapshot))
  | .snapshotSize => (s, .size s.snapshot.length)
  | .copy => (s, .copied ⟨s.raftstate, s.snapshot⟩)

def runOps (s : PersisterSt) : List POp → PersisterSt
  | [] => s
  | op :: ops => runOps (runOp s op).1 ops

def isSaveOp : POp → Bool
  | .save _ _ => true
  | _ => false

/-- The arguments of the last `Save` in a serialized history, if
any. -/
def lastSave : List POp → Option (List Nat × List Nat)
  | [] => none
  | op :: ops =>
      match lastSave ops with
      | some p => some p
      | none =>
          match op with
          | .save rs ss => some (rs, ss)
          | _ => none

theorem clone_eq (l : List Nat) : clone l = l := List.map_id l

theorem runOp_state_of_not_save (s : PersisterSt) (op : POp)
    (h : isSaveOp op = false) : (runOp s op).1 = s := by
  cases op with
  | save rs ss => exact absurd h (by simp [isSaveOp])
  | readRaftState => rfl
  | raftStateSize => rfl
  | readSnapshot => rfl
  | snapshotSize => rfl
  | copy => rfl

theorem runOps_lastSave (init : PersisterSt) (ops : List POp) :
    runOps init ops
      = match lastSave ops with
        | none => init
        | some (rs, ss) => ⟨rs, ss⟩ := by
  induction ops generalizing init with
  | nil => rfl
  | cons op ops ih =>
    show runOps (runOp init op).1 ops
      = match lastSave (op :: ops) with
        | none => init
        | some (rs, ss) => ⟨rs, ss⟩
    rw [ih]
    show (match lastSave ops with
      | none => (runOp init op).1
      | some (rs, ss) => ⟨rs, ss⟩)
      = match (match lastSave ops with
          | some p => some p
          | none => match op with
            | .save rs ss => some (rs, ss)
            | _ => none) with
        | none => init
        | some (rs, ss) => ⟨rs, ss⟩
    cases lastSave ops with
    | some p => rfl
    | none =>
      cases op with
      | save rs ss =>
        show (⟨clone rs, clone ss⟩ : PersisterSt) = ⟨rs, ss⟩
        rw [clone_eq, clone_eq]
      | readRaftState => rfl
      | raftStateSize => rfl
      | readSnapshot => rfl
      | snapshotSize => rfl
      | copy => rfl

/-- C9: persister operations are atomic (each method body is one
critical section under `mu_`), so any serialized history leaves the
state equal to the initial contents or to the two arguments of the
single latest `Save` — raft state and snapshot are replaced together
and are never observed mixed from different `Save`s.  Non-`Save`
operations do not change the stored state; readers and `Copy` return
an owned copy holding exactly the stored bytes. -/
theorem persister_atomic (init : PersisterSt) (ops : List POp)
    (s : PersisterSt) :
    runOps init ops
        = (match lastSave ops with
          | none => init
          | some (rs, ss) => ⟨rs, ss⟩) ∧
    (∀ op, isSaveOp op = false → (runOp s op).1 = s) ∧
    (runOp s (.save s.raftstate s.snapshot)).1 = s ∧
    (runOp s .readRaftState).2 = .bytes (clone s.raftstate) ∧
    (runOp s .readSnapshot).2 = .bytes (clone s.snapshot) ∧
    (runOp s .raftStateSize).2 = .size s.raftstate.length ∧
    (runOp s .snapshotSize).2 = .size s.snapshot.length ∧
    (runOp s .copy).2 = .copied s ∧
    (∀ l, clone l = l) := by
  refine ⟨runOps_lastSave init ops, runOp_state_of_not_save s, ?_, rfl, rfl,
    rfl, rfl, ?_, clone_eq⟩
  · show (⟨clone s.raftstate, clone s.snapshot⟩ : PersisterSt) = s
    rw [clone_eq, clone_eq]
  · show PResult.copied ⟨s.raftstate, s.snapshot⟩ = .copied s
    rfl

/-- C9 (witness): a history of two `Save`s with reads in between,
from concrete initial contents — the final state is exactly the last
`Save`'s argument pair. -/
theorem persister_atomic_witness :
    runOps ⟨[1], [2]⟩ [.save [3] [4], .readRaftState, .save [5] [6],
        .snapshotSize]
        = (match lastSave [POp.save [3] [4], .readRaftState, .save [5] [6],
            .snapshotSize] with
          | none => (⟨[1], [2]⟩ : PersisterSt)
          | some (rs, ss) => ⟨rs, ss⟩) ∧
    (runOp ⟨[5], [6]⟩ POp.readRaftState).1 = (⟨[5], [6]⟩ : PersisterSt) ∧
    (runOp ⟨[5], [6]⟩ POp.readRaftState).2 = .bytes (clone [5]) ∧
    (runOp ⟨[5], [6]⟩ POp.copy).2 = .copied ⟨[5], [6]⟩ ∧
    clone [9, 9] = [9, 9] := by
  have h := persister_atomic ⟨[1], [2]⟩
    [.save [3] [4], .readRaftState, .save [5] [6], .snapshotSize] ⟨[5], [6]⟩
  exact ⟨h.1, h.2.1 POp.readRaftState (by decide), h.2.2.2.1, h.2.2.2.2.2.2.2.1,
    h.2.2.2.2.2.2.2.2 [9, 9]⟩

end Rpc
